import Mathlib

/-!
Shallow embedding of the `automata` crate (files `src/nfa.rs`, `src/dfa.rs`,
`src/edge.rs`, `src/input.rs`, `src/state.rs`, `src/result.rs`,
`src/automaton.rs`).

Representation choices:
* `State` and `Input` are newtypes over `String` in Rust; both are modelled
  directly as `String` (their only structure is value equality/ordering).
* `BTreeSet<T>` is modelled as a sorted, duplicate-free `List String`
  maintained by `sinsert` (sorted insertion, no-op on a present element),
  matching the set semantics and the sorted iteration order of a B-tree set.
* `BTreeMap<K, V>` is modelled as a sorted association list `SMap V`
  maintained by `sinsertWith` (the `entry` API) with lookup `slookup`.
* An `Edge` is its `input_set : BTreeSet<Input>`, i.e. a sorted `List String`.
* Rust panics (`unwrap`, `todo!`) are modelled by `Option`/`PRes.panicked`
  values, fallible results (`IResult`) by `Except Error` / `PRes.err`.
-/

namespace Automata

/-- The reserved epsilon symbol, the literal "ɛ" in the Rust sources. -/
def epsilon : String := "ɛ"

/-- Lexicographic comparison of character lists by code point (the order of
Rust's `Ord for String`, since UTF-8 preserves code-point order). -/
def ltb : List Char → List Char → Bool
  | [], [] => false
  | [], _ :: _ => true
  | _ :: _, [] => false
  | c :: cs, d :: ds =>
    if c.toNat < d.toNat then true
    else if d.toNat < c.toNat then false
    else ltb cs ds

/-- The strict total order on strings used by the `BTreeSet`/`BTreeMap`
models. -/
def strLt (a b : String) : Bool := ltb a.data b.data

/-- The order as a relation, for sortedness statements. -/
abbrev SLt (a b : String) : Prop := strLt a b = true

theorem ltb_irrefl (l : List Char) : ltb l l = false := by
  induction l with
  | nil => rfl
  | cons c cs ih => simp [ltb, ih]

theorem ltb_trans {l₁ l₂ l₃ : List Char} (h₁ : ltb l₁ l₂ = true)
    (h₂ : ltb l₂ l₃ = true) : ltb l₁ l₃ = true := by
  induction l₁ generalizing l₂ l₃ with
  | nil =>
    cases l₂ with
    | nil => simp [ltb] at h₁
    | cons d ds =>
      cases l₃ with
      | nil => simp [ltb] at h₂
      | cons e es => rfl
  | cons c cs ih =>
    cases l₂ with
    | nil => simp [ltb] at h₁
    | cons d ds =>
      cases l₃ with
      | nil => simp [ltb] at h₂
      | cons e es =>
        simp only [ltb] at h₁ h₂ ⊢
        by_cases hcd : c.toNat < d.toNat
        · by_cases hde : d.toNat < e.toNat
          · simp [show c.toNat < e.toNat by omega]
          · simp only [if_pos hcd] at h₁
            simp only [if_neg hde] at h₂
            by_cases hed : e.toNat < d.toNat
            · simp [hed] at h₂
            · simp [show c.toNat < e.toNat by omega]
        · simp only [if_neg hcd] at h₁
          by_cases hdc : d.toNat < c.toNat
          · simp [hdc] at h₁
          · simp only [if_neg hdc] at h₁
            by_cases hde : d.toNat < e.toNat
            · simp [show c.toNat < e.toNat by omega]
            · simp only [if_neg hde] at h₂
              by_cases hed : e.toNat < d.toNat
              · simp [hed] at h₂
              · simp only [if_neg hed] at h₂
                have hce : ¬ c.toNat < e.toNat := by omega
                have hec : ¬ e.toNat < c.toNat := by omega
                simp [hce, hec, ih h₁ h₂]

theorem ltb_eq_of_not {l₁ l₂ : List Char} (h₁ : ltb l₁ l₂ = false)
    (h₂ : ltb l₂ l₁ = false) : l₁ = l₂ := by
  induction l₁ generalizing l₂ with
  | nil =>
    cases l₂ with
    | nil => rfl
    | cons d ds => simp [ltb] at h₁
  | cons c cs ih =>
    cases l₂ with
    | nil => simp [ltb] at h₂
    | cons d ds =>
      simp only [ltb] at h₁ h₂
      by_cases hcd : c.toNat < d.toNat
      · simp [hcd] at h₁
      · by_cases hdc : d.toNat < c.toNat
        · simp [hdc] at h₂
        · simp only [if_neg hcd, if_neg hdc] at h₁ h₂
          have hn : c.toNat = d.toNat := by omega
          have hc : c = d := Char.eq_of_val_eq (UInt32.ext hn)
          rw [hc, ih h₁ h₂]

theorem strLt_irrefl (a : String) : strLt a a = false := ltb_irrefl a.data

theorem strLt_trans {a b c : String} (h₁ : strLt a b = true)
    (h₂ : strLt b c = true) : strLt a c = true := ltb_trans h₁ h₂

theorem strLt_eq_of_not {a b : String} (h₁ : strLt a b = false)
    (h₂ : strLt b a = false) : a = b := by
  cases a with
  | mk l₁ =>
    cases b with
    | mk l₂ => exact congrArg String.mk (ltb_eq_of_not h₁ h₂)

theorem strLt_asymm {a b : String} (h : strLt a b = true) : strLt b a = false := by
  by_contra h'
  have h'' : strLt b a = true := by
    cases hba : strLt b a
    · exact absurd hba h'
    · rfl
  have := strLt_trans h h''
  rw [strLt_irrefl] at this
  cases this

/-- Insertion into a sorted duplicate-free list, modelling `BTreeSet::insert`
for string-like values: a no-op when the element is already present. -/
def sinsert (a : String) : List String → List String
  | [] => [a]
  | b :: l => if a = b then b :: l else if strLt a b then a :: b :: l else b :: sinsert a l

/-- A `BTreeMap` with `String` keys, modelled as a sorted association list. -/
abbrev SMap (α : Type) := List (String × α)

/-- Lookup in an association list, modelling `BTreeMap::get`. -/
def slookup {α : Type} (k : String) : SMap α → Option α
  | [] => none
  | p :: l => if k = p.1 then some p.2 else slookup k l

/-- The `entry(k).and_modify(f).or_insert(dflt)` pattern of `BTreeMap`:
apply `f` to the value at `k` when present, otherwise insert `dflt` at the
sorted position of `k`. -/
def sinsertWith {α : Type} (f : α → α) (dflt : α) (k : String) : SMap α → SMap α
  | [] => [(k, dflt)]
  | p :: l =>
    if k = p.1 then (p.1, f p.2) :: l
    else if strLt k p.1 then (k, dflt) :: p :: l
    else p :: sinsertWith f dflt k l

/-- The `try_insert(k, v)` pattern of `BTreeMap`: insert only when absent. -/
def tryInsert {α : Type} (k : String) (v : α) (m : SMap α) : SMap α :=
  match slookup k m with
  | some _ => m
  | none => sinsertWith id v k m

/-- Update of the value stored at key `k`, modelling `get_mut(k).unwrap()`
followed by a mutation (the key is present at every use site). -/
def supdate {α : Type} (k : String) (f : α → α) (m : SMap α) : SMap α :=
  m.map (fun p => if p.1 = k then (p.1, f p.2) else p)

/-- Lookup of a present key, modelling `get(k).unwrap()` at use sites where
the key is known to be present (absent keys yield the default, which never
happens on the paths proved about). -/
def mget (m : SMap (List String)) (k : String) : List String :=
  (slookup k m).getD []

/-- The error enum of `src/result.rs` (messages dropped: they are static
strings irrelevant to control flow). -/
inductive Error : Type
  | IllegalArgument
  | UnsupportedOperation
  | Uninitialized
deriving DecidableEq, Repr

/-- Outcome of a Rust call that can panic: `ok` models `Ok`, `err` models
`Err`, `panicked` models a panic (`unwrap` on `Err`/`None`). -/
inductive PRes (α : Type) : Type
  | panicked
  | err (e : Error)
  | ok (a : α)
deriving DecidableEq, Repr

/-- The `NFA` struct of `src/nfa.rs`: initial/finite state sets, the derived
alphabet, the adjacency matrix `state → state → edge input set`, and the
optional cached epsilon-closure matrix. -/
structure NFA : Type where
  initial_states : List String
  finite_states : List String
  feasible_inputs : List String
  adjacency_matrix : SMap (SMap (List String))
  epsilon_closure_matrix : Option (SMap (List String))
deriving DecidableEq, Repr

/-- The `DFA` struct of `src/dfa.rs`: at most one initial state and no
closure-matrix field. -/
structure DFA : Type where
  initial_state : Option String
  finite_states : List String
  feasible_inputs : List String
  adjacency_matrix : SMap (SMap (List String))
deriving DecidableEq, Repr

/-- `NFA::new` (src/nfa.rs:29): the empty automaton. -/
def NFA.new : NFA :=
  { initial_states := []
    finite_states := []
    feasible_inputs := []
    adjacency_matrix := []
    epsilon_closure_matrix := none }

/-- `NFA::add_initial_states` (src/nfa.rs:39): union the given ids into the
initial-state set; always `Ok` (the `IResult` wrapper is dropped since the
function never fails). -/
def NFA.add_initial_states (n : NFA) (ids : List String) : NFA :=
  { n with initial_states := ids.foldl (fun s i => sinsert i s) n.initial_states }

/-- `NFA::add_finite_states` (src/nfa.rs:47): union the given ids into the
finite-(accepting-)state set; always `Ok`. -/
def NFA.add_finite_states (n : NFA) (ids : List String) : NFA :=
  { n with finite_states := ids.foldl (fun s i => sinsert i s) n.finite_states }

/-- The inner `entry(to).and_modify(add_input).or_insert(Edge::with_inputs([input]))`
chain of `add_transfer_rule`. -/
def addEdge (toId inp : String) (m : SMap (List String)) : SMap (List String) :=
  sinsertWith (fun e => sinsert inp e) [inp] toId m

/-- `NFA::add_transfer_rule` (src/nfa.rs:55): record the symbol in
`feasible_inputs` unless it is epsilon, add the edge, make sure `to` is a
graph node, and invalidate the cached closure matrix; always `Ok`. -/
def NFA.add_transfer_rule (n : NFA) (fromId inp toId : String) : NFA :=
  { n with
    feasible_inputs :=
      if inp = epsilon then n.feasible_inputs else sinsert inp n.feasible_inputs
    adjacency_matrix :=
      tryInsert toId []
        (sinsertWith (addEdge toId inp) (addEdge toId inp []) fromId n.adjacency_matrix)
    epsilon_closure_matrix := none }

/-- `get_all_states_iter` (src/nfa.rs:78): the keys of the adjacency matrix. -/
def NFA.get_all_states (n : NFA) : List String :=
  n.adjacency_matrix.map Prod.fst

/-- `get_states_num` (src/nfa.rs:103). -/
def NFA.get_states_num (n : NFA) : Nat :=
  n.adjacency_matrix.length

/-- `DFA::new` (src/dfa.rs:28) is `todo!()`: it panics, producing no DFA;
modelled as `none`. -/
def DFA.new : Option DFA := none

/-- `DFA::add_initial_states` (src/dfa.rs:32): error if an initial state is
already set, error unless exactly one id is supplied, otherwise record it. -/
def DFA.add_initial_states (d : DFA) (ids : List String) : Except Error DFA :=
  if d.initial_state.isSome then
    Except.error Error.UnsupportedOperation
  else
    match ids with
    | [x] => Except.ok { d with initial_state := some x }
    | _ => Except.error Error.IllegalArgument

/-- `DFA::add_finite_states` (src/dfa.rs:46): same as the NFA version. -/
def DFA.add_finite_states (d : DFA) (ids : List String) : DFA :=
  { d with finite_states := ids.foldl (fun s i => sinsert i s) d.finite_states }

/-- `DFA::add_transfer_rule` (src/dfa.rs:54): identical to the NFA version
except that there is no closure matrix to invalidate. -/
def DFA.add_transfer_rule (d : DFA) (fromId inp toId : String) : DFA :=
  { d with
    feasible_inputs :=
      if inp = epsilon then d.feasible_inputs else sinsert inp d.feasible_inputs
    adjacency_matrix :=
      tryInsert toId []
        (sinsertWith (addEdge toId inp) (addEdge toId inp []) fromId d.adjacency_matrix) }

/-- The per-state initialization of the closure matrix
(src/nfa.rs:113-117): the keys of the inner map of `s` whose edge contains
epsilon, collected into a set, plus `s` itself. -/
def initRow (s : String) (inner : SMap (List String)) : List String :=
  sinsert s (((inner.filter (fun p => decide (epsilon ∈ p.2))).map Prod.fst).foldl
    (fun acc t => sinsert t acc) [])

/-- One body evaluation of the triple loop of `calc_epsilon_closure_matrix`
(src/nfa.rs:123-126): if `sk ∈ closure(si)` and `sj ∈ closure(sk)` then
insert `sj` into `closure(si)`. -/
def warshallStep (sk si sj : String) (m : SMap (List String)) : SMap (List String) :=
  if sk ∈ mget m si ∧ sj ∈ mget m sk then supdate si (sinsert sj) m else m

/-- The triple loop of `calc_epsilon_closure_matrix` (src/nfa.rs:120-129):
`for sk { for si { for sj { step } } }` over the state list. -/
def warshall (keys : List String) (m0 : SMap (List String)) : SMap (List String) :=
  keys.foldl
    (fun m sk =>
      keys.foldl
        (fun m si => keys.foldl (fun m sj => warshallStep sk si sj m) m)
        m)
    m0

/-- `NFA::calc_epsilon_closure_matrix` (src/nfa.rs:110): initialize each
graph node's row to itself plus its direct epsilon successors, run the
Warshall triple loop, and store the result. -/
def NFA.calc_epsilon_closure_matrix (n : NFA) : NFA :=
  { n with
    epsilon_closure_matrix :=
      some (warshall (n.get_all_states)
        (n.adjacency_matrix.map (fun p => (p.1, initRow p.1 p.2)))) }

/-- `NFA::get_epsilon_closure` (src/nfa.rs:136): `Uninitialized` when the
closure matrix is absent; otherwise the union of the matrix rows of the
query states, panicking (`.unwrap()` on `get`) when a query state is not a
key of the matrix. -/
def NFA.get_epsilon_closure (n : NFA) (query : List String) : PRes (List String) :=
  match n.epsilon_closure_matrix with
  | none => PRes.err Error.Uninitialized
  | some m =>
    if query.all (fun s => (slookup s m).isSome) then
      PRes.ok (query.foldl (fun acc s => (mget m s).foldl (fun a t => sinsert t a) acc) [])
    else
      PRes.panicked

/-- `NFA::straight_reachable_states` (src/nfa.rs:150): the set of states
reached from some query state by one edge whose input set contains the given
symbol (query states absent from the adjacency matrix are skipped by
`filter_map`). -/
def NFA.straight_reachable_states (n : NFA) (query : List String) (inp : String) :
    List String :=
  query.foldl
    (fun acc s =>
      match slookup s n.adjacency_matrix with
      | none => acc
      | some inner =>
        ((inner.filter (fun p => decide (inp ∈ p.2))).map Prod.fst).foldl
          (fun a t => sinsert t a) acc)
    []

/-- The `known_states` map of `to_dfa`: a `BTreeMap<BTreeSet<State>, String>`
modelled as an association list from state sets (sorted lists) to synthetic
ids, in insertion order (its iteration order is never consumed). -/
abbrev Known := List (List String × String)

/-- Lookup in the `known_states` map by set equality. -/
def klookup (k : List String) : Known → Option String
  | [] => none
  | p :: l => if k = p.1 then some p.2 else klookup k l

/-- Result of `to_dfa`: the built automaton together with the final
`known_states` map, a panic (some internal `unwrap` failed), or fuel
exhaustion of the embedded worklist loop (never reached for sufficient
fuel). -/
inductive DfaRes : Type
  | panicked
  | fuelOut
  | done (d : NFA) (known : Known)
deriving DecidableEq, Repr

/-- One iteration of the `for input in &self.feasible_inputs` body of
`to_dfa` (src/nfa.rs:175-194): compute the moved-to composite state, enqueue
and register it when new, emit the transition, and mark the target accepting
when it meets the original accepting set. `none` models the panic of the
`.unwrap()` on `get_epsilon_closure`. -/
def stepInput (nfa : NFA) (front : List String) (frontId : String)
    (st : NFA × List (List String) × Known) (inp : String) :
    Option (NFA × List (List String) × Known) :=
  match nfa.get_epsilon_closure (nfa.straight_reachable_states front inp) with
  | PRes.ok t =>
    let dfa := st.1
    let queue := st.2.1
    let known := st.2.2
    let queue' := if (klookup t known).isSome then queue else queue ++ [t]
    let tid := (klookup t known).getD (Nat.repr known.length)
    let known' := if (klookup t known).isSome then known else known ++ [(t, Nat.repr known.length)]
    let dfa1 := dfa.add_transfer_rule frontId inp tid
    let dfa2 :=
      if nfa.finite_states.any (fun s => decide (s ∈ t)) then dfa1.add_finite_states [tid]
      else dfa1
    some (dfa2, queue', known')
  | _ => none

/-- The full `for input in &self.feasible_inputs` loop of `to_dfa` for one
dequeued front state, threading the output automaton, queue and known map. -/
def foldInputs (nfa : NFA) (front : List String) (frontId : String) :
    List String → NFA × List (List String) × Known →
    Option (NFA × List (List String) × Known)
  | [], st => some st
  | inp :: rest, st =>
    match stepInput nfa front frontId st inp with
    | some st' => foldInputs nfa front frontId rest st'
    | none => none

/-- The `while let Some(front_state) = search_queue.pop_front()` loop of
`to_dfa` (src/nfa.rs:172-195), with explicit fuel bounding the number of
iterations. -/
def subsetLoop (nfa : NFA) : Nat → NFA → List (List String) → Known → DfaRes
  | _, dfa, [], known => DfaRes.done dfa known
  | 0, _, _ :: _, _ => DfaRes.fuelOut
  | fuel + 1, dfa, front :: rest, known =>
    match klookup front known with
    | none => DfaRes.panicked
    | some frontId =>
      match foldInputs nfa front frontId nfa.feasible_inputs (dfa, rest, known) with
      | some st => subsetLoop nfa fuel st.1 st.2.1 st.2.2
      | none => DfaRes.panicked

/-- Fuel that always suffices for `subsetLoop`: every enqueued composite
state is a subset of the union of the closure-matrix rows, so at most
`2 ^ u + 1` states are ever dequeued, where `u` bounds that universe. -/
def toDfaFuel (nfa : NFA) : Nat :=
  match nfa.epsilon_closure_matrix with
  | none => 1
  | some m => 2 ^ (m.foldl (fun acc p => p.2.foldl (fun a x => sinsert x a) acc) []).length + 1

/-- `NFA::to_dfa` (src/nfa.rs:162): compute the epsilon closure of the
initial states (panicking when the closure matrix is absent, via
`.unwrap()`), seed the queue and `known_states` with it under synthetic id
"0", and run the worklist loop. The result exposes the final `known_states`
map (the Rust code prints and drops it). -/
def NFA.to_dfa (nfa : NFA) : DfaRes :=
  match nfa.get_epsilon_closure nfa.initial_states with
  | PRes.ok start =>
    subsetLoop nfa (toDfaFuel nfa) (NFA.new.add_initial_states ["0"])
      [start] [(start, "0")]
  | _ => DfaRes.panicked

/-- Membership of `inp` in the edge (input set) between `a` and `b` of an
automaton's adjacency matrix. -/
def edgeMem (adj : SMap (SMap (List String))) (a inp b : String) : Prop :=
  ∃ inner e, slookup a adj = some inner ∧ slookup b inner = some e ∧ inp ∈ e

instance (adj : SMap (SMap (List String))) (a inp b : String) :
    Decidable (edgeMem adj a inp b) := by
  unfold edgeMem
  cases slookup a adj with
  | none => exact Decidable.isFalse (by simp)
  | some inner =>
    cases h : slookup b inner with
    | none => exact Decidable.isFalse (by simp [h])
    | some e => exact decidable_of_iff (inp ∈ e) (by simp [h])

/-! Basic lemmas about the ordered-set and ordered-map helpers. -/

theorem mem_sinsert (x a : String) (l : List String) :
    x ∈ sinsert a l ↔ x = a ∨ x ∈ l := by
  induction l with
  | nil => simp [sinsert]
  | cons b l ih =>
    simp only [sinsert]
    split
    · next h => subst h; simp [List.mem_cons] <;> tauto
    · split
      · simp [List.mem_cons] <;> tauto
      · simp [List.mem_cons, ih] <;> tauto

theorem mem_foldl_sinsert (l init : List String) (x : String) :
    x ∈ l.foldl (fun s i => sinsert i s) init ↔ x ∈ l ∨ x ∈ init := by
  induction l generalizing init with
  | nil => simp
  | cons a l ih =>
    simp only [List.foldl_cons, ih, mem_sinsert, List.mem_cons]
    tauto

theorem sinsert_sorted {a : String} {l : List String}
    (h : l.Sorted SLt) : (sinsert a l).Sorted SLt := by
  induction l with
  | nil => simp [sinsert]
  | cons b l ih =>
    rw [List.sorted_cons] at h
    obtain ⟨hb, hl⟩ := h
    simp only [sinsert]
    split
    · next he => exact List.sorted_cons.2 ⟨hb, hl⟩
    · split
      · next hne hlt =>
        refine List.sorted_cons.2 ⟨?_, List.sorted_cons.2 ⟨hb, hl⟩⟩
        intro x hx
        rcases List.mem_cons.1 hx with rfl | hx
        · exact hlt
        · exact strLt_trans hlt (hb x hx)
      · next hne hnlt =>
        have hnlt' : strLt a b = false := by
          cases hab : strLt a b
          · rfl
          · exact absurd hab hnlt
        have hba : SLt b a := by
          cases hba : strLt b a
          · exact absurd (strLt_eq_of_not hnlt' hba) hne
          · exact hba
        refine List.sorted_cons.2 ⟨?_, ih hl⟩
        intro x hx
        rcases (mem_sinsert x a l).1 hx with rfl | hx
        · exact hba
        · exact hb x hx

theorem sorted_lt_ext {l₁ l₂ : List String} (h₁ : l₁.Sorted SLt)
    (h₂ : l₂.Sorted SLt) (h : ∀ x, x ∈ l₁ ↔ x ∈ l₂) : l₁ = l₂ := by
  induction l₁ generalizing l₂ with
  | nil =>
    cases l₂ with
    | nil => rfl
    | cons b l₂ => exact absurd ((h b).2 (List.mem_cons_self b l₂)) (List.not_mem_nil b)
  | cons a l₁ ih =>
    cases l₂ with
    | nil => exact absurd ((h a).1 (List.mem_cons_self a l₁)) (List.not_mem_nil a)
    | cons b l₂ =>
      rw [List.sorted_cons] at h₁ h₂
      have hab : a = b := by
        rcases List.mem_cons.1 ((h a).1 (List.mem_cons_self a l₁)) with h' | h'
        · exact h'
        · rcases List.mem_cons.1 ((h b).2 (List.mem_cons_self b l₂)) with h'' | h''
          · exact h''.symm
          · have := strLt_trans (h₂.1 a h') (h₁.1 b h'')
            rw [strLt_irrefl] at this
            cases this
      subst hab
      have htail : ∀ x, x ∈ l₁ ↔ x ∈ l₂ := by
        intro x
        constructor
        · intro hx
          rcases List.mem_cons.1 ((h x).1 (List.mem_cons_of_mem a hx)) with heq | h'
          · rw [heq] at hx
            exact absurd (h₁.1 a hx) (by simp [strLt_irrefl])
          · exact h'
        · intro hx
          rcases List.mem_cons.1 ((h x).2 (List.mem_cons_of_mem a hx)) with heq | h'
          · rw [heq] at hx
            exact absurd (h₂.1 a hx) (by simp [strLt_irrefl])
          · exact h'
      rw [ih h₁.2 h₂.2 htail]

/-- Keys of a modelled `BTreeMap` are strictly sorted; every map built by the
embedded operations satisfies this. -/
def SortedKeys {α : Type} (m : SMap α) : Prop :=
  (m.map Prod.fst).Sorted SLt

instance {α : Type} (m : SMap α) : Decidable (SortedKeys m) := by
  unfold SortedKeys
  infer_instance

theorem slookup_eq_none {α : Type} {k : String} {m : SMap α}
    (h : k ∉ m.map Prod.fst) : slookup k m = none := by
  induction m with
  | nil => rfl
  | cons p l ih =>
    simp only [List.map_cons, List.mem_cons] at h
    push_neg at h
    simp [slookup, h.1, ih h.2]

theorem keys_sinsertWith {α : Type} (f : α → α) (d : α) (k : String)
    (m : SMap α) :
    (sinsertWith f d k m).map Prod.fst = sinsert k (m.map Prod.fst) := by
  induction m with
  | nil => simp [sinsertWith, sinsert]
  | cons p l ih =>
    simp only [sinsertWith, sinsert, List.map_cons]
    split
    · next h => simp [h]
    · split
      · simp
      · simp [ih]

theorem slookup_sinsertWith_self {α : Type} (f : α → α) (d : α) (k : String)
    {m : SMap α} (hs : SortedKeys m) :
    slookup k (sinsertWith f d k m) =
      some (match slookup k m with | some v => f v | none => d) := by
  induction m with
  | nil => simp [sinsertWith, slookup]
  | cons p l ih =>
    have hs' : SortedKeys l := (List.sorted_cons.1 hs).2
    simp only [sinsertWith, slookup]
    split
    · next h => simp [slookup, h]
    · next h =>
      split
      · next hlt =>
        have hnone : slookup k l = none := by
          apply slookup_eq_none
          intro hk
          have hcontra := strLt_trans hlt ((List.sorted_cons.1 hs).1 k hk)
          rw [strLt_irrefl] at hcontra
          cases hcontra
        simp [slookup, h, hnone]
      · next hlt => simp [slookup, h, ih hs']

theorem slookup_sinsertWith_ne {α : Type} (f : α → α) (d : α) {k k' : String}
    (m : SMap α) (h : k' ≠ k) :
    slookup k' (sinsertWith f d k m) = slookup k' m := by
  induction m with
  | nil => simp [sinsertWith, slookup, h]
  | cons p l ih =>
    simp only [sinsertWith]
    split
    · next he =>
      subst he
      simp [slookup, h]
    · split
      · simp [slookup, h]
      · simp [slookup, ih]

theorem slookup_tryInsert_self {α : Type} (k : String) (v : α) {m : SMap α}
    (hs : SortedKeys m) :
    slookup k (tryInsert k v m) = some ((slookup k m).getD v) := by
  unfold tryInsert
  cases h : slookup k m with
  | some w => simp [h]
  | none => simp [h, slookup_sinsertWith_self _ _ _ hs]

theorem slookup_tryInsert_ne {α : Type} {k k' : String} (v : α) (m : SMap α)
    (h : k' ≠ k) : slookup k' (tryInsert k v m) = slookup k' m := by
  unfold tryInsert
  cases slookup k m with
  | some w => rfl
  | none => exact slookup_sinsertWith_ne _ _ _ h

theorem slookup_supdate_self {α : Type} (k : String) (f : α → α) (m : SMap α) :
    slookup k (supdate k f m) = (slookup k m).map f := by
  unfold supdate
  induction m with
  | nil => simp [slookup]
  | cons p l ih =>
    simp only [List.map_cons]
    by_cases h : p.1 = k
    · subst h
      simp [slookup]
    · have h' : k ≠ p.1 := fun he => h he.symm
      simp only [if_neg h, slookup, if_neg h']
      exact ih

theorem slookup_supdate_ne {α : Type} {k k' : String} (f : α → α) (m : SMap α)
    (h : k' ≠ k) : slookup k' (supdate k f m) = slookup k' m := by
  unfold supdate
  induction m with
  | nil => simp [slookup]
  | cons p l ih =>
    simp only [List.map_cons]
    by_cases hp : p.1 = k
    · subst hp
      rw [if_pos rfl]
      simp only [slookup, if_neg h]
      exact ih
    · simp only [if_neg hp, slookup]
      split
      · rfl
      · exact ih

theorem keys_supdate {α : Type} (k : String) (f : α → α) (m : SMap α) :
    (supdate k f m).map Prod.fst = m.map Prod.fst := by
  unfold supdate
  induction m with
  | nil => rfl
  | cons p l ih =>
    simp only [List.map_cons] at *
    by_cases h : p.1 = k
    · simp [h, ih]
    · simp [h, ih]

theorem mem_keys_sinsertWith {α : Type} (f : α → α) (d : α) (k x : String)
    (m : SMap α) :
    x ∈ (sinsertWith f d k m).map Prod.fst ↔ x = k ∨ x ∈ m.map Prod.fst := by
  rw [keys_sinsertWith, mem_sinsert]

theorem slookup_isSome_iff_mem_keys {α : Type} (k : String) (m : SMap α) :
    (slookup k m).isSome = true ↔ k ∈ m.map Prod.fst := by
  induction m with
  | nil => simp [slookup]
  | cons p l ih =>
    simp only [slookup, List.map_cons, List.mem_cons]
    split
    · next h => simp [h]
    · next h => simp [h, ih]

theorem mem_keys_tryInsert {α : Type} (k x : String) (v : α) (m : SMap α) :
    x ∈ (tryInsert k v m).map Prod.fst ↔ x = k ∨ x ∈ m.map Prod.fst := by
  unfold tryInsert
  cases h : slookup k m with
  | some w =>
    constructor
    · tauto
    · rintro (rfl | hx)
      · exact (slookup_isSome_iff_mem_keys x m).1 (by simp [h])
      · exact hx
  | none => exact mem_keys_sinsertWith _ _ _ _ _

/-! Injectivity of the decimal rendering `Nat.repr`, used for the synthetic
state ids of the subset construction. -/

/-- Decimal digits of a natural number, most significant first. -/
def decDigits (n : Nat) : List Char :=
  if h : n < 10 then [Nat.digitChar n]
  else decDigits (n / 10) ++ [Nat.digitChar (n % 10)]
decreasing_by
  exact Nat.div_lt_self (by omega) (by omega)

theorem toDigitsCore_eq_decDigits
    (f : Nat) : ∀ n acc, n < f →
    Nat.toDigitsCore 10 f n acc = decDigits n ++ acc := by
  induction f with
  | zero => intro n acc h; omega
  | succ f ih =>
    intro n acc h
    rw [Nat.toDigitsCore]
    by_cases h10 : n / 10 = 0
    · have hn : n < 10 := by omega
      rw [if_pos h10, decDigits, dif_pos hn, Nat.mod_eq_of_lt hn]
      simp
    · have hn : ¬ n < 10 := by omega
      rw [if_neg h10, ih (n / 10) _ (by omega)]
      conv_rhs => rw [decDigits]
      rw [dif_neg hn]
      simp

/-- Numeric value of a digit character. -/
def charVal (c : Char) : Nat := c.toNat - 48

theorem charVal_digitChar {d : Nat} (h : d < 10) :
    charVal (Nat.digitChar d) = d := by
  interval_cases d <;> rfl

/-- Value of a most-significant-first digit-character list. -/
def listVal (l : List Char) : Nat :=
  l.foldl (fun a c => 10 * a + charVal c) 0

theorem listVal_decDigits (n : Nat) : listVal (decDigits n) = n := by
  induction n using Nat.strong_induction_on with
  | _ n ih =>
    by_cases h : n < 10
    · rw [decDigits, dif_pos h]
      simp [listVal, charVal_digitChar h]
    · rw [decDigits, dif_neg h]
      have hdiv : n / 10 < n := Nat.div_lt_self (by omega) (by omega)
      have hv := ih (n / 10) hdiv
      unfold listVal at hv ⊢
      rw [List.foldl_append, hv]
      simp [charVal_digitChar (Nat.mod_lt n (by omega))]
      omega

theorem natRepr_inj {a b : Nat} (h : Nat.repr a = Nat.repr b) : a = b := by
  unfold Nat.repr Nat.toDigits at h
  have ha := toDigitsCore_eq_decDigits (a + 1) a [] (by omega)
  have hb := toDigitsCore_eq_decDigits (b + 1) b [] (by omega)
  rw [ha, hb] at h
  have h' : decDigits a ++ [] = decDigits b ++ [] := congrArg String.data h
  simp only [List.append_nil] at h'
  have := congrArg listVal h'
  rwa [listVal_decDigits, listVal_decDigits] at this

/-! Lemmas about the `known_states` association list. -/

theorem klookup_append (k : List String) (l₁ l₂ : Known) :
    klookup k (l₁ ++ l₂) =
      match klookup k l₁ with
      | some v => some v
      | none => klookup k l₂ := by
  induction l₁ with
  | nil => simp [klookup]
  | cons p l ih =>
    simp only [List.cons_append, klookup]
    split
    · rfl
    · exact ih

theorem klookup_mem {k : List String} {v : String} {m : Known}
    (h : klookup k m = some v) : (k, v) ∈ m := by
  induction m with
  | nil => simp [klookup] at h
  | cons p l ih =>
    simp only [klookup] at h
    split at h
    · next he =>
      cases h
      rw [he]
      exact List.mem_cons_self _ _
    · exact List.mem_cons_of_mem _ (ih h)

theorem klookup_isSome_of_mem {k : List String} {v : String} {m : Known}
    (h : (k, v) ∈ m) : (klookup k m).isSome = true := by
  induction m with
  | nil => simp at h
  | cons p l ih =>
    rcases List.mem_cons.1 h with rfl | h'
    · simp [klookup]
    · simp only [klookup]
      split
      · rfl
      · exact ih h'

theorem klookup_eq_of_mem {k : List String} {v : String} {m : Known}
    (hnd : (m.map Prod.fst).Nodup) (h : (k, v) ∈ m) : klookup k m = some v := by
  induction m with
  | nil => simp at h
  | cons p l ih =>
    simp only [List.map_cons, List.nodup_cons] at hnd
    rcases List.mem_cons.1 h with rfl | h'
    · simp [klookup]
    · have hk : k ≠ p.1 := by
        intro he
        exact hnd.1 (he ▸ List.mem_map_of_mem Prod.fst h')
      simp only [klookup, if_neg hk]
      exact ih hnd.2 h'

/-! Sequences of mutation calls, for claims quantifying over call histories. -/

/-- One mutation call of the `FiniteAutomaton` API on an NFA. -/
inductive AOp : Type
  | addInit (ids : List String)
  | addFin (ids : List String)
  | addRule (fromId inp toId : String)
  | calcClosure
deriving DecidableEq, Repr

/-- Whether an operation is an `add_transfer_rule` call. -/
def AOp.isRule : AOp → Bool
  | AOp.addRule _ _ _ => true
  | _ => false

/-- Apply one API call to an NFA. -/
def applyOp (n : NFA) : AOp → NFA
  | AOp.addInit ids => n.add_initial_states ids
  | AOp.addFin ids => n.add_finite_states ids
  | AOp.addRule f i t => n.add_transfer_rule f i t
  | AOp.calcClosure => n.calc_epsilon_closure_matrix

/-- Apply a sequence of API calls, oldest first. -/
def applyOps (n : NFA) (ops : List AOp) : NFA := ops.foldl applyOp n

theorem foldl_preserves {α β : Type} {P : α → Prop} (f : α → β → α)
    (l : List β) (init : α) (h0 : P init)
    (hstep : ∀ a b, b ∈ l → P a → P (f a b)) : P (l.foldl f init) := by
  induction l generalizing init with
  | nil => exact h0
  | cons b l ih =>
    exact ih (f init b) (hstep init b (List.mem_cons_self b l) h0)
      (fun a c hc ha => hstep a c (List.mem_cons_of_mem b hc) ha)

theorem mem_keys_add_transfer_rule (n : NFA) (f i t s : String) :
    s ∈ (n.add_transfer_rule f i t).get_all_states ↔
      s = f ∨ s = t ∨ s ∈ n.get_all_states := by
  simp only [NFA.add_transfer_rule, NFA.get_all_states, mem_keys_tryInsert,
    mem_keys_sinsertWith]
  tauto

/-- C6 (code_bug evidence): `NFA::new` does return the fully empty automaton,
but `DFA::new` is `todo!()` in src/dfa.rs:28-30 and panics (modelled `none`)
instead of returning an empty DFA, contradicting the claim that both
constructors succeed. -/
theorem C6_new_constructors :
    NFA.new.initial_states = [] ∧ NFA.new.finite_states = [] ∧
    NFA.new.feasible_inputs = [] ∧ NFA.new.adjacency_matrix = [] ∧
    NFA.new.epsilon_closure_matrix = none ∧ DFA.new = none :=
  ⟨rfl, rfl, rfl, rfl, rfl, rfl⟩

/-- C8: `DFA::add_initial_states` fails with `UnsupportedOperation` whenever
an initial state is already set, fails with `IllegalArgument` when none is
set and the iterator does not yield exactly one element, and on success
records the single supplied id as the initial state. -/
theorem C8_dfa_add_initial_states (d : DFA) (ids : List String) :
    (d.initial_state.isSome = true →
      d.add_initial_states ids = Except.error Error.UnsupportedOperation) ∧
    (d.initial_state = none → ids.length ≠ 1 →
      d.add_initial_states ids = Except.error Error.IllegalArgument) ∧
    (∀ x, d.initial_state = none → ids = [x] →
      d.add_initial_states ids = Except.ok { d with initial_state := some x }) := by
  refine ⟨fun h => ?_, fun h hlen => ?_, fun x h hids => ?_⟩
  · simp [DFA.add_initial_states, h]
  · unfold DFA.add_initial_states
    rw [h]
    simp only [Option.isSome_none, Bool.false_eq_true, if_false]
    match ids, hlen with
    | [], _ => rfl
    | [x], h1 => exact absurd rfl h1
    | x :: y :: l, _ => rfl
  · subst hids
    simp [DFA.add_initial_states, h]

/-- Witness for C8: all three branches realized on concrete DFA values. -/
theorem C8_dfa_add_initial_states_witness :
    DFA.add_initial_states ⟨some "q", [], [], []⟩ ["a"] =
      Except.error Error.UnsupportedOperation ∧
    DFA.add_initial_states ⟨none, [], [], []⟩ [] =
      Except.error Error.IllegalArgument ∧
    DFA.add_initial_states ⟨none, [], [], []⟩ ["a"] =
      Except.ok ⟨some "a", [], [], []⟩ :=
  ⟨(C8_dfa_add_initial_states ⟨some "q", [], [], []⟩ ["a"]).1 rfl,
   (C8_dfa_add_initial_states ⟨none, [], [], []⟩ []).2.1 rfl (by decide),
   (C8_dfa_add_initial_states ⟨none, [], [], []⟩ ["a"]).2.2 "a" rfl rfl⟩

/-- C4 (counterexample): on the fresh NFA, whose closure index was never
built, `to_dfa` panics (the `Uninitialized` error of `get_epsilon_closure`
is hit by `.unwrap()` in src/nfa.rs:164) — it does not return the error to
the caller, whose received type (`NFA`, not `IResult<NFA>`) cannot carry an
error at all. -/
theorem C4_counterexample : NFA.to_dfa NFA.new = DfaRes.panicked := by decide

/-- C4 (amended): calling `to_dfa` on any NFA whose closure matrix is absent
panics rather than returning the `Uninitialized` error, and produces no
output automaton. -/
theorem C4_to_dfa_uninitialized_panics (nfa : NFA)
    (h : nfa.epsilon_closure_matrix = none) : nfa.to_dfa = DfaRes.panicked := by
  unfold NFA.to_dfa NFA.get_epsilon_closure
  rw [h]

/-- Witness for C4 (amended): the fresh NFA has no closure matrix and its
conversion panics. -/
theorem C4_to_dfa_uninitialized_panics_witness :
    NFA.to_dfa NFA.new = DfaRes.panicked :=
  C4_to_dfa_uninitialized_panics NFA.new rfl

/-- C5 (counterexample): an id passed only to `add_finite_states` is
recorded in the accepting set but is not synthesized as a graph node, so it
is missing from the all-states enumeration. -/
theorem C5_counterexample :
    "Y" ∈ (NFA.new.add_finite_states ["Y"]).finite_states ∧
    "Y" ∉ (NFA.new.add_finite_states ["Y"]).get_all_states := by decide

/-- C5 (amended): over every sequence of API calls starting from the empty
NFA, a StateId is a key of the adjacency-matrix graph exactly when it occurs
as an endpoint of some `add_transfer_rule` call; ids passed only to
`add_initial_states` or `add_finite_states` are recorded in the respective
sets but are not synthesized as graph nodes. -/
theorem C5_node_synthesis (ops : List AOp) (s : String) :
    s ∈ (applyOps NFA.new ops).get_all_states ↔
      ∃ f i t, AOp.addRule f i t ∈ ops ∧ (s = f ∨ s = t) := by
  have main : ∀ (ops : List AOp) (n : NFA),
      s ∈ (applyOps n ops).get_all_states ↔
        (∃ f i t, AOp.addRule f i t ∈ ops ∧ (s = f ∨ s = t)) ∨
          s ∈ n.get_all_states := by
    intro ops
    induction ops with
    | nil => simp [applyOps]
    | cons op ops ih =>
      intro n
      have step : applyOps n (op :: ops) = applyOps (applyOp n op) ops := rfl
      rw [step, ih]
      cases op with
      | addInit ids =>
        simp only [applyOp, NFA.add_initial_states, NFA.get_all_states]
        constructor
        · rintro (⟨f, i, t, hm, hs⟩ | hs)
          · exact Or.inl ⟨f, i, t, List.mem_cons_of_mem _ hm, hs⟩
          · exact Or.inr hs
        · rintro (⟨f, i, t, hm, hs⟩ | hs)
          · rcases List.mem_cons.1 hm with h | h
            · exact absurd h (by simp)
            · exact Or.inl ⟨f, i, t, h, hs⟩
          · exact Or.inr hs
      | addFin ids =>
        simp only [applyOp, NFA.add_finite_states, NFA.get_all_states]
        constructor
        · rintro (⟨f, i, t, hm, hs⟩ | hs)
          · exact Or.inl ⟨f, i, t, List.mem_cons_of_mem _ hm, hs⟩
          · exact Or.inr hs
        · rintro (⟨f, i, t, hm, hs⟩ | hs)
          · rcases List.mem_cons.1 hm with h | h
            · exact absurd h (by simp)
            · exact Or.inl ⟨f, i, t, h, hs⟩
          · exact Or.inr hs
      | calcClosure =>
        simp only [applyOp, NFA.calc_epsilon_closure_matrix, NFA.get_all_states]
        constructor
        · rintro (⟨f, i, t, hm, hs⟩ | hs)
          · exact Or.inl ⟨f, i, t, List.mem_cons_of_mem _ hm, hs⟩
          · exact Or.inr hs
        · rintro (⟨f, i, t, hm, hs⟩ | hs)
          · rcases List.mem_cons.1 hm with h | h
            · exact absurd h (by simp)
            · exact Or.inl ⟨f, i, t, h, hs⟩
          · exact Or.inr hs
      | addRule f' i' t' =>
        show (_ ∨ s ∈ (NFA.add_transfer_rule n f' i' t').get_all_states) ↔ _
        rw [mem_keys_add_transfer_rule]
        constructor
        · rintro (⟨f, i, t, hm, hs⟩ | rfl | rfl | hs)
          · exact Or.inl ⟨f, i, t, List.mem_cons_of_mem _ hm, hs⟩
          · exact Or.inl ⟨s, i', t', List.mem_cons_self _ _, Or.inl rfl⟩
          · exact Or.inl ⟨f', i', s, List.mem_cons_self _ _, Or.inr rfl⟩
          · exact Or.inr hs
        · rintro (⟨f, i, t, hm, hs⟩ | hs)
          · rcases List.mem_cons.1 hm with h | h
            · cases h
              rcases hs with rfl | rfl
              · exact Or.inr (Or.inl rfl)
              · exact Or.inr (Or.inr (Or.inl rfl))
            · exact Or.inl ⟨f, i, t, h, hs⟩
          · exact Or.inr (Or.inr (Or.inr hs))
  rw [main ops NFA.new]
  simp [NFA.new, NFA.get_all_states]

/-! Alphabet derivation (claim C9). -/

/-- A transition-rule triple (from-state, symbol, to-state). -/
abbrev Rule := String × String × String

/-- Apply a sequence of `add_transfer_rule` calls to an NFA, oldest first. -/
def applyRules (n : NFA) (rules : List Rule) : NFA :=
  rules.foldl (fun m r => m.add_transfer_rule r.1 r.2.1 r.2.2) n

/-- Apply a sequence of `add_transfer_rule` calls to a DFA, oldest first. -/
def applyRulesD (d : DFA) (rules : List Rule) : DFA :=
  rules.foldl (fun m r => m.add_transfer_rule r.1 r.2.1 r.2.2) d

/-- The empty DFA value that `DFA::new` was meant to return (its body is
`todo!()` in the source); used to state facts about the DFA mutation API. -/
def dfaEmpty : DFA := ⟨none, [], [], []⟩

/-- The update `add_transfer_rule` applies to `feasible_inputs` (identical
in src/nfa.rs:60-62 and src/dfa.rs:59-61). -/
def alphaStep (F : List String) (r : Rule) : List String :=
  if r.2.1 = epsilon then F else sinsert r.2.1 F

theorem feasible_applyRules (n : NFA) (rules : List Rule) :
    (applyRules n rules).feasible_inputs =
      rules.foldl alphaStep n.feasible_inputs := by
  induction rules generalizing n with
  | nil => rfl
  | cons r rules ih =>
    show (applyRules (n.add_transfer_rule r.1 r.2.1 r.2.2) rules).feasible_inputs = _
    rw [ih]
    rfl

theorem feasible_applyRulesD (d : DFA) (rules : List Rule) :
    (applyRulesD d rules).feasible_inputs =
      rules.foldl alphaStep d.feasible_inputs := by
  induction rules generalizing d with
  | nil => rfl
  | cons r rules ih =>
    show (applyRulesD (d.add_transfer_rule r.1 r.2.1 r.2.2) rules).feasible_inputs = _
    rw [ih]
    rfl

theorem mem_foldl_alphaStep (rules : List Rule) (F : List String) (x : String) :
    x ∈ rules.foldl alphaStep F ↔
      ((∃ r ∈ rules, r.2.1 = x) ∧ x ≠ epsilon) ∨ x ∈ F := by
  induction rules generalizing F with
  | nil => simp
  | cons r rules ih =>
    rw [List.foldl_cons, ih]
    unfold alphaStep
    split
    · next he =>
      constructor
      · rintro (⟨⟨r', hr', hx⟩, hne⟩ | hF)
        · exact Or.inl ⟨⟨r', List.mem_cons_of_mem _ hr', hx⟩, hne⟩
        · exact Or.inr hF
      · rintro (⟨⟨r', hr', hx⟩, hne⟩ | hF)
        · rcases List.mem_cons.1 hr' with rfl | h
          · exact absurd (hx ▸ he) hne
          · exact Or.inl ⟨⟨r', h, hx⟩, hne⟩
        · exact Or.inr hF
    · next he =>
      rw [mem_sinsert]
      constructor
      · rintro (⟨⟨r', hr', hx⟩, hne⟩ | rfl | hF)
        · exact Or.inl ⟨⟨r', List.mem_cons_of_mem _ hr', hx⟩, hne⟩
        · exact Or.inl ⟨⟨r, List.mem_cons_self _ _, rfl⟩, he⟩
        · exact Or.inr hF
      · rintro (⟨⟨r', hr', hx⟩, hne⟩ | hF)
        · rcases List.mem_cons.1 hr' with rfl | h
          · exact Or.inr (Or.inl hx.symm)
          · exact Or.inl ⟨⟨r', h, hx⟩, hne⟩
        · exact Or.inr (Or.inr hF)

theorem sorted_foldl_alphaStep (rules : List Rule) {F : List String}
    (h : F.Sorted SLt) : (rules.foldl alphaStep F).Sorted SLt := by
  induction rules generalizing F with
  | nil => exact h
  | cons r rules ih =>
    rw [List.foldl_cons]
    apply ih
    unfold alphaStep
    split
    · exact h
    · exact sinsert_sorted h

/-- C9: after any sequence of `add_transfer_rule` calls on an empty NFA or
DFA, the alphabet (`feasible_inputs`) is exactly the set of non-epsilon
symbols occurring as the symbol argument of some call, and the resulting
(sorted) set is identical for every permutation of the call sequence. -/
theorem C9_alphabet_derivation (rules rules' : List Rule) :
    (∀ x, x ∈ (applyRules NFA.new rules).feasible_inputs ↔
      ((∃ r ∈ rules, r.2.1 = x) ∧ x ≠ epsilon)) ∧
    (∀ x, x ∈ (applyRulesD dfaEmpty rules).feasible_inputs ↔
      ((∃ r ∈ rules, r.2.1 = x) ∧ x ≠ epsilon)) ∧
    (rules.Perm rules' →
      (applyRules NFA.new rules).feasible_inputs =
        (applyRules NFA.new rules').feasible_inputs ∧
      (applyRulesD dfaEmpty rules).feasible_inputs =
        (applyRulesD dfaEmpty rules').feasible_inputs) := by
  have hmemN : ∀ (rs : List Rule) (x : String),
      x ∈ (applyRules NFA.new rs).feasible_inputs ↔
        ((∃ r ∈ rs, r.2.1 = x) ∧ x ≠ epsilon) := by
    intro rs x
    rw [feasible_applyRules, mem_foldl_alphaStep]
    show _ ∨ x ∈ ([] : List String) ↔ _
    simp
  have hmemD : ∀ (rs : List Rule) (x : String),
      x ∈ (applyRulesD dfaEmpty rs).feasible_inputs ↔
        ((∃ r ∈ rs, r.2.1 = x) ∧ x ≠ epsilon) := by
    intro rs x
    rw [feasible_applyRulesD, mem_foldl_alphaStep]
    show _ ∨ x ∈ ([] : List String) ↔ _
    simp
  have hsortN : ∀ rs : List Rule,
      ((applyRules NFA.new rs).feasible_inputs).Sorted SLt := by
    intro rs
    rw [feasible_applyRules]
    exact sorted_foldl_alphaStep rs (by simp [NFA.new])
  have hsortD : ∀ rs : List Rule,
      ((applyRulesD dfaEmpty rs).feasible_inputs).Sorted SLt := by
    intro rs
    rw [feasible_applyRulesD]
    exact sorted_foldl_alphaStep rs (by simp [dfaEmpty])
  refine ⟨hmemN rules, hmemD rules, fun hperm => ⟨?_, ?_⟩⟩
  · apply sorted_lt_ext (hsortN rules) (hsortN rules')
    intro x
    rw [hmemN rules, hmemN rules']
    constructor
    · rintro ⟨⟨r, hr, hx⟩, hne⟩
      exact ⟨⟨r, hperm.mem_iff.1 hr, hx⟩, hne⟩
    · rintro ⟨⟨r, hr, hx⟩, hne⟩
      exact ⟨⟨r, hperm.mem_iff.2 hr, hx⟩, hne⟩
  · apply sorted_lt_ext (hsortD rules) (hsortD rules')
    intro x
    rw [hmemD rules, hmemD rules']
    constructor
    · rintro ⟨⟨r, hr, hx⟩, hne⟩
      exact ⟨⟨r, hperm.mem_iff.1 hr, hx⟩, hne⟩
    · rintro ⟨⟨r, hr, hx⟩, hne⟩
      exact ⟨⟨r, hperm.mem_iff.2 hr, hx⟩, hne⟩

/-- Witness for C9: a concrete two-rule sequence and its transposition yield
the identical alphabet on both automaton variants. -/
theorem C9_alphabet_derivation_witness :
    (applyRules NFA.new [("a", "x", "b"), ("c", "y", "d")]).feasible_inputs =
      (applyRules NFA.new [("c", "y", "d"), ("a", "x", "b")]).feasible_inputs ∧
    (applyRulesD dfaEmpty [("a", "x", "b"), ("c", "y", "d")]).feasible_inputs =
      (applyRulesD dfaEmpty [("c", "y", "d"), ("a", "x", "b")]).feasible_inputs :=
  (C9_alphabet_derivation [("a", "x", "b"), ("c", "y", "d")]
    [("c", "y", "d"), ("a", "x", "b")]).2.2 (by decide)

/-! Key structure of the computed closure matrix (claims C10, C3). -/

theorem keys_warshallStep (sk si sj : String) (m : SMap (List String)) :
    (warshallStep sk si sj m).map Prod.fst = m.map Prod.fst := by
  unfold warshallStep
  split
  · exact keys_supdate _ _ _
  · rfl

theorem keys_warshallInner (sk si : String) (ks : List String)
    (m : SMap (List String)) :
    (ks.foldl (fun m sj => warshallStep sk si sj m) m).map Prod.fst =
      m.map Prod.fst := by
  induction ks generalizing m with
  | nil => rfl
  | cons a ks ih =>
    rw [List.foldl_cons, ih, keys_warshallStep]

theorem keys_warshallMid (sk : String) (ks' ks : List String)
    (m : SMap (List String)) :
    (ks.foldl (fun m si => ks'.foldl (fun m sj => warshallStep sk si sj m) m) m).map
        Prod.fst = m.map Prod.fst := by
  induction ks generalizing m with
  | nil => rfl
  | cons a ks ih =>
    rw [List.foldl_cons, ih, keys_warshallInner]

theorem keys_warshallOuter (ks ol : List String) (m : SMap (List String)) :
    (ol.foldl
        (fun m sk =>
          ks.foldl (fun m si => ks.foldl (fun m sj => warshallStep sk si sj m) m) m)
        m).map Prod.fst = m.map Prod.fst := by
  induction ol generalizing m with
  | nil => rfl
  | cons a ol ih =>
    rw [List.foldl_cons, ih, keys_warshallMid]

theorem keys_warshall (ks : List String) (m : SMap (List String)) :
    (warshall ks m).map Prod.fst = m.map Prod.fst :=
  keys_warshallOuter ks ks m

/-- The matrix stored by `calc_epsilon_closure_matrix` has exactly the graph
nodes as its keys. -/
theorem calc_matrix_keys (n : NFA) :
    ∃ M, (n.calc_epsilon_closure_matrix).epsilon_closure_matrix = some M ∧
      M.map Prod.fst = n.get_all_states := by
  refine ⟨_, rfl, ?_⟩
  rw [keys_warshall]
  simp [NFA.get_all_states, List.map_map]

/-- Reduction of `get_epsilon_closure` when the closure matrix is present. -/
theorem get_epsilon_closure_some {n : NFA} {M : SMap (List String)}
    (h : n.epsilon_closure_matrix = some M) (q : List String) :
    n.get_epsilon_closure q =
      if q.all (fun s => (slookup s M).isSome) then
        PRes.ok (q.foldl (fun acc s => (mget M s).foldl (fun a t => sinsert t a) acc) [])
      else PRes.panicked := by
  unfold NFA.get_epsilon_closure
  rw [h]

/-- C10: with the closure matrix freshly computed, `get_epsilon_closure`
avoids the panic exactly when every query state is a key of the adjacency
matrix (a graph node); on a query containing a non-node the unguarded
`get(s).unwrap()` panics, and with the matrix present no error value is ever
returned. -/
theorem C10_closure_query_panic_boundary (nfa : NFA) (q : List String) :
    ((nfa.calc_epsilon_closure_matrix).get_epsilon_closure q ≠ PRes.panicked ↔
      ∀ s ∈ q, s ∈ nfa.get_all_states) ∧
    (∀ e, (nfa.calc_epsilon_closure_matrix).get_epsilon_closure q ≠ PRes.err e) := by
  obtain ⟨M, hM, hkeys⟩ := calc_matrix_keys nfa
  have hcond : (q.all fun s => (slookup s M).isSome) = true ↔
      ∀ s ∈ q, s ∈ nfa.get_all_states := by
    rw [List.all_eq_true]
    constructor
    · intro h s hs
      rw [← hkeys]
      exact (slookup_isSome_iff_mem_keys s M).1 (h s hs)
    · intro h s hs
      exact (slookup_isSome_iff_mem_keys s M).2 (hkeys ▸ h s hs)
  rw [get_epsilon_closure_some hM]
  constructor
  · by_cases hc : (q.all fun s => (slookup s M).isSome) = true
    · rw [if_pos hc]
      simp only [ne_eq]
      constructor
      · intro _
        exact hcond.1 hc
      · intro _
        intro h
        cases h
    · rw [if_neg hc]
      constructor
      · intro h
        exact absurd rfl h
      · intro h
        exact absurd (hcond.2 h) hc
  · intro e
    by_cases hc : (q.all fun s => (slookup s M).isSome) = true
    · rw [if_pos hc]
      intro h
      cases h
    · rw [if_neg hc]
      intro h
      cases h

/-- Witness for C10: on the one-edge NFA `X --eps--> Y` with freshly built
closure matrix, querying the graph nodes X and Y does not panic, and
querying the non-node Z panics. -/
theorem C10_closure_query_panic_boundary_witness :
    (NFA.add_transfer_rule NFA.new "X" "ɛ" "Y").calc_epsilon_closure_matrix.get_epsilon_closure
        ["X", "Y"] ≠ PRes.panicked ∧
    (NFA.add_transfer_rule NFA.new "X" "ɛ" "Y").calc_epsilon_closure_matrix.get_epsilon_closure
        ["Z"] = PRes.panicked :=
  ⟨(C10_closure_query_panic_boundary (NFA.add_transfer_rule NFA.new "X" "ɛ" "Y")
      ["X", "Y"]).1.mpr (by
        intro s hs
        have hall : (NFA.add_transfer_rule NFA.new "X" "ɛ" "Y").get_all_states =
            ["X", "Y"] := by decide
        rw [hall]
        exact hs),
   by
    by_contra h
    have hz := (C10_closure_query_panic_boundary (NFA.add_transfer_rule NFA.new "X" "ɛ" "Y")
      ["Z"]).1.mp h "Z" (List.mem_singleton.2 rfl)
    have hall : (NFA.add_transfer_rule NFA.new "X" "ɛ" "Y").get_all_states =
        ["X", "Y"] := by decide
    rw [hall] at hz
    simp at hz⟩

/-! Closure-matrix presence over call histories (claim C7). -/

/-- Scan of a reversed call sequence: `some true` when a
`calc_epsilon_closure_matrix` call is met before any `add_transfer_rule`,
`some false` when a rule is met first, `none` when neither occurs. -/
def lastCalcFresh : List AOp → Option Bool
  | [] => none
  | AOp.calcClosure :: _ => some true
  | AOp.addRule _ _ _ :: _ => some false
  | _ :: rest => lastCalcFresh rest

theorem lastCalcFresh_append (l : List AOp) (op : AOp) :
    lastCalcFresh (l ++ [op]) =
      match lastCalcFresh l with
      | some b => some b
      | none => lastCalcFresh [op] := by
  induction l with
  | nil => simp [lastCalcFresh]
  | cons o l ih =>
    cases o with
    | addInit ids => simpa [lastCalcFresh] using ih
    | addFin ids => simpa [lastCalcFresh] using ih
    | addRule f i t => simp [lastCalcFresh]
    | calcClosure => simp [lastCalcFresh]

theorem matrix_none_iff_scan (ops : List AOp) (n : NFA) :
    (applyOps n ops).epsilon_closure_matrix = none ↔
      (match lastCalcFresh ops.reverse with
       | some true => False
       | some false => True
       | none => n.epsilon_closure_matrix = none) := by
  induction ops generalizing n with
  | nil => simp [applyOps, lastCalcFresh]
  | cons op ops ih =>
    have hstep : applyOps n (op :: ops) = applyOps (applyOp n op) ops := rfl
    rw [hstep, ih (applyOp n op)]
    have hrev : (op :: ops).reverse = ops.reverse ++ [op] := by simp
    rw [hrev, lastCalcFresh_append]
    cases hscan : lastCalcFresh ops.reverse with
    | some b => cases b <;> rfl
    | none =>
      cases op with
      | addInit ids => simp [lastCalcFresh, applyOp, NFA.add_initial_states]
      | addFin ids => simp [lastCalcFresh, applyOp, NFA.add_finite_states]
      | addRule f i t => simp [lastCalcFresh, applyOp, NFA.add_transfer_rule]
      | calcClosure => simp [lastCalcFresh, applyOp, NFA.calc_epsilon_closure_matrix]

/-- Adding a non-rule, non-calc call at the end preserves the existence of a
rule-free suffix after some calc call. -/
theorem decomp_append_nonrule {ops : List AOp} {op : AOp}
    (hop : op.isRule = false) (hnc : op ≠ AOp.calcClosure) :
    (∃ l₁ l₂, ops ++ [op] = l₁ ++ AOp.calcClosure :: l₂ ∧ ∀ o ∈ l₂, o.isRule = false) ↔
      (∃ l₁ l₂, ops = l₁ ++ AOp.calcClosure :: l₂ ∧ ∀ o ∈ l₂, o.isRule = false) := by
  constructor
  · rintro ⟨l₁, l₂, h, hnr⟩
    have hrev := congrArg List.reverse h
    rw [List.reverse_append, List.reverse_singleton, List.singleton_append,
      List.reverse_append, List.reverse_cons, List.append_assoc] at hrev
    cases hl₂ : l₂.reverse with
    | nil =>
      rw [hl₂] at hrev
      simp only [List.nil_append, List.singleton_append, List.cons.injEq] at hrev
      exact absurd hrev.1 hnc
    | cons x r =>
      rw [hl₂] at hrev
      simp only [List.cons_append, List.cons.injEq] at hrev
      refine ⟨l₁, r.reverse, ?_, ?_⟩
      · apply List.reverse_injective
        rw [hrev.2]
        simp
      · intro o ho
        apply hnr
        have hmem : o ∈ l₂.reverse := by
          rw [hl₂]
          exact List.mem_cons_of_mem x (by simpa using ho)
        simpa using hmem
  · rintro ⟨l₁, l₂, h, hnr⟩
    refine ⟨l₁, l₂ ++ [op], by rw [h]; simp, ?_⟩
    intro o ho
    rcases List.mem_append.1 ho with h' | h'
    · exact hnr o h'
    · rcases List.mem_singleton.1 h' with rfl
      exact hop

/-- Adding a rule call at the end destroys every rule-free suffix. -/
theorem decomp_append_rule {ops : List AOp} {f i t : String} :
    ¬∃ l₁ l₂, ops ++ [AOp.addRule f i t] = l₁ ++ AOp.calcClosure :: l₂ ∧
      ∀ o ∈ l₂, o.isRule = false := by
  rintro ⟨l₁, l₂, h, hnr⟩
  have hrev := congrArg List.reverse h
  rw [List.reverse_append, List.reverse_singleton, List.singleton_append,
    List.reverse_append, List.reverse_cons, List.append_assoc] at hrev
  cases hl₂ : l₂.reverse with
  | nil =>
    rw [hl₂] at hrev
    simp only [List.nil_append, List.singleton_append, List.cons.injEq] at hrev
    cases hrev.1
  | cons x r =>
    rw [hl₂] at hrev
    simp only [List.cons_append, List.cons.injEq] at hrev
    have hmem : x ∈ l₂ := by
      have hx : x ∈ l₂.reverse := by
        rw [hl₂]
        exact List.mem_cons_self x r
      simpa using hx
    have := hnr x hmem
    rw [← hrev.1] at this
    simp [AOp.isRule] at this

theorem scan_iff_decomp (ops : List AOp) :
    lastCalcFresh ops.reverse = some true ↔
      ∃ l₁ l₂, ops = l₁ ++ AOp.calcClosure :: l₂ ∧ ∀ op ∈ l₂, op.isRule = false := by
  induction ops using List.reverseRecOn with
  | nil =>
    simp only [List.reverse_nil, lastCalcFresh]
    constructor
    · intro h
      cases h
    · rintro ⟨l₁, l₂, h, _⟩
      exact absurd (congrArg List.length h) (by simp; omega)
  | append_singleton ops op ih =>
    rw [List.reverse_append, List.reverse_singleton, List.singleton_append]
    cases op with
    | calcClosure =>
      simp only [lastCalcFresh]
      constructor
      · intro _
        exact ⟨ops, [], by simp, by simp⟩
      · intro _
        trivial
    | addRule f i t =>
      simp only [lastCalcFresh]
      constructor
      · intro h
        cases h
      · intro h
        exact absurd h decomp_append_rule
    | addInit ids =>
      simp only [lastCalcFresh]
      rw [ih]
      exact (@decomp_append_nonrule ops (AOp.addInit ids) rfl (by simp)).symm
    | addFin ids =>
      simp only [lastCalcFresh]
      rw [ih]
      exact (@decomp_append_nonrule ops (AOp.addFin ids) rfl (by simp)).symm

theorem mem_closure_fold (q : List String) (M : SMap (List String))
    (acc : List String) (x : String) :
    x ∈ q.foldl (fun acc s => (mget M s).foldl (fun a t => sinsert t a) acc) acc ↔
      (∃ s ∈ q, x ∈ mget M s) ∨ x ∈ acc := by
  induction q generalizing acc with
  | nil => simp
  | cons s q ih =>
    rw [List.foldl_cons, ih, mem_foldl_sinsert]
    constructor
    · rintro (⟨s', hs', hx⟩ | hx | hx)
      · exact Or.inl ⟨s', List.mem_cons_of_mem _ hs', hx⟩
      · exact Or.inl ⟨s, List.mem_cons_self _ _, hx⟩
      · exact Or.inr hx
    · rintro (⟨s', hs', hx⟩ | hx)
      · rcases List.mem_cons.1 hs' with rfl | h'
        · exact Or.inr (Or.inl hx)
        · exact Or.inl ⟨s', h', hx⟩
      · exact Or.inr (Or.inr hx)

/-- C7: `get_epsilon_closure` returns `Uninitialized` exactly when the
closure matrix is absent; the matrix is absent over a call history from the
empty NFA exactly when no `calc_epsilon_closure_matrix` call is free of a
later `add_transfer_rule` call (every rule addition invalidates); and with
the matrix present holding a row for every query state, the result is `Ok`
with exactly the union of the per-state rows (empty for the empty query). -/
theorem C7_get_epsilon_closure_uninitialized (ops : List AOp) (nfa : NFA)
    (M : SMap (List String)) (q : List String) :
    ((applyOps NFA.new ops).epsilon_closure_matrix = none ↔
      ¬∃ l₁ l₂, ops = l₁ ++ AOp.calcClosure :: l₂ ∧ ∀ op ∈ l₂, op.isRule = false) ∧
    (∀ f i t, (nfa.add_transfer_rule f i t).epsilon_closure_matrix = none) ∧
    ((∃ e, nfa.get_epsilon_closure q = PRes.err e) ↔
      nfa.epsilon_closure_matrix = none) ∧
    (nfa.epsilon_closure_matrix = none →
      nfa.get_epsilon_closure q = PRes.err Error.Uninitialized) ∧
    (nfa.epsilon_closure_matrix = some M → (∀ s ∈ q, (slookup s M).isSome = true) →
      ∃ r, nfa.get_epsilon_closure q = PRes.ok r ∧
        ∀ x, (x ∈ r ↔ ∃ s ∈ q, x ∈ mget M s)) := by
  have herr : nfa.epsilon_closure_matrix = none →
      nfa.get_epsilon_closure q = PRes.err Error.Uninitialized := by
    intro h
    unfold NFA.get_epsilon_closure
    rw [h]
  refine ⟨?_, fun f i t => rfl, ?_, herr, ?_⟩
  · rw [matrix_none_iff_scan]
    have hd := scan_iff_decomp ops
    cases hscan : lastCalcFresh ops.reverse with
    | none =>
      show NFA.new.epsilon_closure_matrix = none ↔ _
      constructor
      · intro _ hx
        rw [hd.2 hx] at hscan
        cases hscan
      · intro _
        rfl
    | some b =>
      cases b with
      | false =>
        show True ↔ _
        constructor
        · intro _ hx
          rw [hd.2 hx] at hscan
          cases hscan
        · intro _
          trivial
      | true =>
        show False ↔ _
        constructor
        · intro h
          exact h.elim
        · intro hn
          exact hn (hd.1 hscan)
  · cases hm : nfa.epsilon_closure_matrix with
    | none =>
      constructor
      · intro _
        rfl
      · intro _
        exact ⟨Error.Uninitialized, herr hm⟩
    | some M' =>
      rw [get_epsilon_closure_some hm]
      constructor
      · rintro ⟨e, he⟩
        split at he <;> cases he
      · intro h
        cases h
  · intro hm hq
    rw [get_epsilon_closure_some hm]
    have hcond : (q.all fun s => (slookup s M).isSome) = true :=
      List.all_eq_true.2 hq
    rw [if_pos hcond]
    refine ⟨_, rfl, fun x => ?_⟩
    rw [mem_closure_fold]
    simp

/-- Witness for C7: on concrete automata, the fresh empty NFA yields the
`Uninitialized` error and the freshly indexed empty NFA yields `Ok` with the
empty union. -/
theorem C7_get_epsilon_closure_uninitialized_witness :
    NFA.get_epsilon_closure NFA.new [] = PRes.err Error.Uninitialized ∧
    ∃ r, (NFA.new.calc_epsilon_closure_matrix).get_epsilon_closure [] = PRes.ok r ∧
      ∀ x, (x ∈ r ↔ ∃ s ∈ ([] : List String), x ∈ mget [] s) :=
  ⟨(C7_get_epsilon_closure_uninitialized [] NFA.new [] []).2.2.2.1 rfl,
   (C7_get_epsilon_closure_uninitialized [] NFA.new.calc_epsilon_closure_matrix
     [] []).2.2.2.2 rfl (by simp)⟩

/-! Correctness of the Warshall epsilon-closure computation (claim C3). -/

theorem slookup_mem {α : Type} {k : String} {v : α} {m : SMap α}
    (h : slookup k m = some v) : (k, v) ∈ m := by
  induction m with
  | nil => simp [slookup] at h
  | cons p l ih =>
    simp only [slookup] at h
    split at h
    · next he =>
      cases h
      rw [he]
      exact List.mem_cons_self _ _
    · exact List.mem_cons_of_mem _ (ih h)

theorem slookup_eq_of_mem {α : Type} {k : String} {v : α} {m : SMap α}
    (hnd : (m.map Prod.fst).Nodup) (h : (k, v) ∈ m) : slookup k m = some v := by
  induction m with
  | nil => simp at h
  | cons p l ih =>
    simp only [List.map_cons, List.nodup_cons] at hnd
    rcases List.mem_cons.1 h with rfl | h'
    · simp [slookup]
    · have hk : k ≠ p.1 := by
        intro he
        exact hnd.1 (he ▸ List.mem_map_of_mem Prod.fst h')
      simp only [slookup, if_neg hk]
      exact ih hnd.2 h'

theorem sortedKeys_nodup {α : Type} {m : SMap α} (h : SortedKeys m) :
    (m.map Prod.fst).Nodup := by
  unfold SortedKeys at h
  refine List.Pairwise.imp ?_ h
  intro a b hab he
  exact absurd (he ▸ hab) (by simp [strLt_irrefl])

/-- Reachability along `step` where every concatenation point lies in `K`:
exactly the paths whose intermediate nodes all satisfy `K`. -/
inductive BddReach (step : String → String → Prop) (K : String → Prop) :
    String → String → Prop
  | refl (a : String) : BddReach step K a a
  | single {a b : String} : step a b → BddReach step K a b
  | comp {a b c : String} : BddReach step K a b → K b → BddReach step K b c →
      BddReach step K a c

theorem bddReach_mono {step : String → String → Prop} {K K' : String → Prop}
    (hK : ∀ b, K b → K' b) {a c : String} (h : BddReach step K a c) :
    BddReach step K' a c := by
  induction h with
  | refl a => exact BddReach.refl a
  | single hstep => exact BddReach.single hstep
  | comp _ hb _ ih₁ ih₂ => exact BddReach.comp ih₁ (hK _ hb) ih₂

theorem bddReach_pivot {step : String → String → Prop} {K : String → Prop}
    {k a c : String} (h : BddReach step (fun b => b = k ∨ K b) a c) :
    BddReach step K a c ∨ (BddReach step K a k ∧ BddReach step K k c) := by
  induction h with
  | refl a => exact Or.inl (BddReach.refl a)
  | single hstep => exact Or.inl (BddReach.single hstep)
  | comp hab hb hbc ih₁ ih₂ =>
    rcases hb with rfl | hbK
    · refine Or.inr ⟨?_, ?_⟩
      · rcases ih₁ with h₁ | ⟨h₁, _⟩
        · exact h₁
        · exact h₁
      · rcases ih₂ with h₂ | ⟨_, h₂⟩
        · exact h₂
        · exact h₂
    · rcases ih₁ with h₁ | ⟨h₁, h₁'⟩
      · rcases ih₂ with h₂ | ⟨h₂, h₂'⟩
        · exact Or.inl (BddReach.comp h₁ hbK h₂)
        · exact Or.inr ⟨BddReach.comp h₁ hbK h₂, h₂'⟩
      · rcases ih₂ with h₂ | ⟨h₂, h₂'⟩
        · exact Or.inr ⟨h₁, BddReach.comp h₁' hbK h₂⟩
        · exact Or.inr ⟨h₁, h₂'⟩

theorem bddReach_to_reflTransGen {step : String → String → Prop}
    {K : String → Prop} {a c : String} (h : BddReach step K a c) :
    Relation.ReflTransGen step a c := by
  induction h with
  | refl a => exact Relation.ReflTransGen.refl
  | single hstep => exact Relation.ReflTransGen.single hstep
  | comp _ _ _ ih₁ ih₂ => exact ih₁.trans ih₂

/-- Row reads after `supdate`. -/
theorem mget_supdate_self (k : String) (f : List String → List String)
    (m : SMap (List String)) :
    mget (supdate k f m) k = ((slookup k m).map f).getD [] := by
  rw [mget, slookup_supdate_self]

theorem mget_supdate_ne {k r : String} (f : List String → List String)
    (m : SMap (List String)) (h : r ≠ k) :
    mget (supdate k f m) r = mget m r := by
  rw [mget, slookup_supdate_ne _ _ h, mget]

/-- Membership change of a single `warshallStep`. -/
theorem mem_warshallStep (sk si sj : String) (m : SMap (List String))
    (r x : String) :
    x ∈ mget (warshallStep sk si sj m) r ↔
      x ∈ mget m r ∨
        (r = si ∧ sk ∈ mget m si ∧ sj ∈ mget m sk ∧ x = sj) := by
  unfold warshallStep
  by_cases hcond : sk ∈ mget m si ∧ sj ∈ mget m sk
  · rw [if_pos hcond]
    by_cases hr : r = si
    · rw [hr, mget_supdate_self]
      cases hs : slookup si m with
      | none =>
        exfalso
        have h1 := hcond.1
        rw [mget, hs] at h1
        exact absurd h1 (List.not_mem_nil sk)
      | some row =>
        have hrow : mget m si = row := by rw [mget, hs]; rfl
        rw [hrow] at hcond
        show x ∈ sinsert sj row ↔ _
        rw [mem_sinsert, hrow]
        constructor
        · rintro (rfl | hx)
          · exact Or.inr ⟨rfl, hcond.1, hcond.2, rfl⟩
          · exact Or.inl hx
        · rintro (hx | ⟨_, _, _, rfl⟩)
          · exact Or.inr hx
          · exact Or.inl rfl
    · rw [mget_supdate_ne _ _ hr]
      constructor
      · intro hx
        exact Or.inl hx
      · rintro (hx | ⟨he, _⟩)
        · exact hx
        · exact absurd he hr
  · rw [if_neg hcond]
    constructor
    · intro hx
      exact Or.inl hx
    · rintro (hx | ⟨_, h1, h2, _⟩)
      · exact hx
      · exact absurd ⟨h1, h2⟩ hcond

/-- Membership change of the innermost (`sj`) loop of the Warshall pass for
a fixed pivot `sk` and row `si`. -/
theorem mem_warshallInner (sk si : String) (js : List String)
    (m : SMap (List String)) (r x : String) :
    x ∈ mget (js.foldl (fun m sj => warshallStep sk si sj m) m) r ↔
      x ∈ mget m r ∨ (r = si ∧ sk ∈ mget m si ∧ x ∈ js ∧ x ∈ mget m sk) := by
  induction js generalizing m with
  | nil => simp
  | cons j js ih =>
    rw [List.foldl_cons, ih]
    constructor
    · rintro (hx | ⟨hr, hsk, hj, hxk⟩)
      · rcases (mem_warshallStep sk si j m r x).1 hx with hx' | ⟨hr, h1, h2, hxj⟩
        · exact Or.inl hx'
        · exact Or.inr ⟨hr, h1, by rw [hxj]; exact List.mem_cons_self _ _, hxj ▸ h2⟩
      · have hsk' : sk ∈ mget m si := by
          rcases (mem_warshallStep sk si j m si sk).1 hsk with h' | ⟨_, h1, _, _⟩
          · exact h'
          · exact h1
        have hxk' : x ∈ mget m sk := by
          rcases (mem_warshallStep sk si j m sk x).1 hxk with h' | ⟨_, _, h2, hxj⟩
          · exact h'
          · exact hxj ▸ h2
        exact Or.inr ⟨hr, hsk', List.mem_cons_of_mem _ hj, hxk'⟩
    · rintro (hx | ⟨hr, hsk, hj, hxk⟩)
      · exact Or.inl ((mem_warshallStep sk si j m r x).2 (Or.inl hx))
      · rcases List.mem_cons.1 hj with heq | hj'
        · exact Or.inl
            ((mem_warshallStep sk si j m r x).2 (Or.inr ⟨hr, hsk, heq ▸ hxk, heq⟩))
        · refine Or.inr ⟨hr, ?_, hj', ?_⟩
          · exact (mem_warshallStep sk si j m si sk).2 (Or.inl hsk)
          · exact (mem_warshallStep sk si j m sk x).2 (Or.inl hxk)

/-- Membership change of one full pivot round (the `si`/`sj` double loop for
a fixed pivot `sk`). -/
theorem mem_warshallMid (sk : String) (js is : List String)
    (m : SMap (List String)) (r x : String) :
    x ∈ mget
        (is.foldl (fun m si => js.foldl (fun m sj => warshallStep sk si sj m) m) m)
        r ↔
      x ∈ mget m r ∨ (r ∈ is ∧ sk ∈ mget m r ∧ x ∈ js ∧ x ∈ mget m sk) := by
  induction is generalizing m with
  | nil => simp
  | cons i is ih =>
    rw [List.foldl_cons, ih]
    constructor
    · rintro (hx | ⟨hr, hsk, hj, hxk⟩)
      · rcases (mem_warshallInner sk i js m r x).1 hx with hx' | ⟨hr, hski, hj, hxk⟩
        · exact Or.inl hx'
        · exact Or.inr ⟨by rw [hr]; exact List.mem_cons_self _ _, hr ▸ hski, hj, hxk⟩
      · have hsk' : sk ∈ mget m r := by
          rcases (mem_warshallInner sk i js m r sk).1 hsk with h' | ⟨hre, h1, _, _⟩
          · exact h'
          · exact hre ▸ h1
        have hxk' : x ∈ mget m sk := by
          rcases (mem_warshallInner sk i js m sk x).1 hxk with h' | ⟨_, _, _, h2⟩
          · exact h'
          · exact h2
        exact Or.inr ⟨List.mem_cons_of_mem _ hr, hsk', hj, hxk'⟩
    · rintro (hx | ⟨hr, hsk, hj, hxk⟩)
      · exact Or.inl ((mem_warshallInner sk i js m r x).2 (Or.inl hx))
      · rcases List.mem_cons.1 hr with heq | hr'
        · exact Or.inl
            ((mem_warshallInner sk i js m r x).2 (Or.inr ⟨heq, heq ▸ hsk, hj, hxk⟩))
        · refine Or.inr ⟨hr', ?_, hj, ?_⟩
          · exact (mem_warshallInner sk i js m r sk).2 (Or.inl hsk)
          · exact (mem_warshallInner sk i js m sk x).2 (Or.inl hxk)

/-- Invariant of the outer (pivot) loop of the Warshall pass: soundness
(every stored element is reachable), row containment in the state list, and
completeness for paths whose concatenation points lie in the processed
pivots. -/
theorem warshall_rounds (step : String → String → Prop) (ks : List String) :
    ∀ (ol : List String) (K : String → Prop) (m : SMap (List String)),
    (∀ k ∈ ol, k ∈ ks) →
    (∀ r x, x ∈ mget m r → Relation.ReflTransGen step r x) →
    (∀ r x, x ∈ mget m r → x ∈ ks) →
    (∀ r, r ∈ ks → ∀ x, BddReach step K r x → x ∈ mget m r) →
    (∀ r x,
      x ∈ mget
        (ol.foldl
          (fun m sk =>
            ks.foldl (fun m si => ks.foldl (fun m sj => warshallStep sk si sj m) m) m)
          m) r →
      Relation.ReflTransGen step r x) ∧
    (∀ r x,
      x ∈ mget
        (ol.foldl
          (fun m sk =>
            ks.foldl (fun m si => ks.foldl (fun m sj => warshallStep sk si sj m) m) m)
          m) r →
      x ∈ ks) ∧
    (∀ r, r ∈ ks → ∀ x, BddReach step (fun b => K b ∨ b ∈ ol) r x →
      x ∈ mget
        (ol.foldl
          (fun m sk =>
            ks.foldl (fun m si => ks.foldl (fun m sj => warshallStep sk si sj m) m) m)
          m) r) := by
  intro ol
  induction ol with
  | nil =>
    intro K m _ hsound hsub hcomp
    refine ⟨hsound, hsub, ?_⟩
    intro r hr x hx
    refine hcomp r hr x (bddReach_mono ?_ hx)
    intro b hb
    rcases hb with hb | hb
    · exact hb
    · exact absurd hb (List.not_mem_nil b)
  | cons k ol ih =>
    intro K m hol hsound hsub hcomp
    rw [List.foldl_cons]
    have hM1 := fun r x =>
      mem_warshallMid k ks ks m r x
    have hsound1 : ∀ r x,
        x ∈ mget (ks.foldl (fun m si => ks.foldl (fun m sj => warshallStep k si sj m) m) m) r →
        Relation.ReflTransGen step r x := by
      intro r x hx
      rcases (hM1 r x).1 hx with h | ⟨_, h1, _, h2⟩
      · exact hsound r x h
      · exact (hsound r k h1).trans (hsound k x h2)
    have hsub1 : ∀ r x,
        x ∈ mget (ks.foldl (fun m si => ks.foldl (fun m sj => warshallStep k si sj m) m) m) r →
        x ∈ ks := by
      intro r x hx
      rcases (hM1 r x).1 hx with h | ⟨_, _, h2, _⟩
      · exact hsub r x h
      · exact h2
    have hcomp1 : ∀ r, r ∈ ks → ∀ x, BddReach step (fun b => K b ∨ b = k) r x →
        x ∈ mget (ks.foldl (fun m si => ks.foldl (fun m sj => warshallStep k si sj m) m) m) r := by
      intro r hr x hx
      have hx' : BddReach step (fun b => b = k ∨ K b) r x :=
        bddReach_mono (fun b hb => hb.elim Or.inr Or.inl) hx
      rcases bddReach_pivot hx' with h | ⟨h₁, h₂⟩
      · exact (hM1 r x).2 (Or.inl (hcomp r hr x h))
      · have hk1 : k ∈ mget m r := hcomp r hr k h₁
        have hk2 : x ∈ mget m k := hcomp k (hol k (List.mem_cons_self k ol)) x h₂
        exact (hM1 r x).2 (Or.inr ⟨hr, hk1, hsub k x hk2, hk2⟩)
    have hrec := ih (fun b => K b ∨ b = k)
      (ks.foldl (fun m si => ks.foldl (fun m sj => warshallStep k si sj m) m) m)
      (fun k' hk' => hol k' (List.mem_cons_of_mem _ hk')) hsound1 hsub1 hcomp1
    refine ⟨hrec.1, hrec.2.1, ?_⟩
    intro r hr x hx
    refine hrec.2.2 r hr x (bddReach_mono ?_ hx)
    intro b hb
    rcases hb with hb | hb
    · exact Or.inl (Or.inl hb)
    · rcases List.mem_cons.1 hb with heq | hb'
      · exact Or.inl (Or.inr heq)
      · exact Or.inr hb'

/-- One epsilon-labeled edge of the NFA's transition graph. -/
def epsStep (n : NFA) (a b : String) : Prop :=
  edgeMem n.adjacency_matrix a epsilon b

/-- Well-formedness of an adjacency matrix as produced by the mutation API:
sorted outer and inner keys, and every inner key (transition target) is also
an outer key (the "every state is a graph node" invariant restricted to the
part `add_transfer_rule` actually maintains). -/
abbrev WfAdj (adj : SMap (SMap (List String))) : Prop :=
  SortedKeys adj ∧ ∀ p ∈ adj, SortedKeys p.2 ∧ ∀ q ∈ p.2, q.1 ∈ adj.map Prod.fst

theorem slookup_map_pair {α β : Type} (g : String → α → β) (k : String)
    (m : SMap α) :
    slookup k (m.map (fun p => (p.1, g p.1 p.2))) = (slookup k m).map (g k) := by
  induction m with
  | nil => rfl
  | cons p l ih =>
    simp only [List.map_cons, slookup]
    by_cases h : k = p.1
    · subst h
      simp
    · simp [h, ih]

theorem mem_initRow (s x : String) (inner : SMap (List String)) :
    x ∈ initRow s inner ↔ x = s ∨ ∃ p ∈ inner, p.1 = x ∧ epsilon ∈ p.2 := by
  unfold initRow
  rw [mem_sinsert, mem_foldl_sinsert]
  constructor
  · rintro (rfl | h | h)
    · exact Or.inl rfl
    · rcases List.mem_map.1 h with ⟨p, hp, rfl⟩
      rcases List.mem_filter.1 hp with ⟨hp', hd⟩
      exact Or.inr ⟨p, hp', rfl, of_decide_eq_true hd⟩
    · exact absurd h (List.not_mem_nil x)
  · rintro (rfl | ⟨p, hp, hpx, hε⟩)
    · exact Or.inl rfl
    · refine Or.inr (Or.inl ?_)
      exact List.mem_map.2 ⟨p, List.mem_filter.2 ⟨hp, decide_eq_true hε⟩, hpx⟩

theorem epsStep_target_mem_keys {n : NFA} (hwf : WfAdj n.adjacency_matrix)
    {a b : String} (h : epsStep n a b) : b ∈ n.get_all_states := by
  obtain ⟨inner, e, hl, hlook, _⟩ := h
  exact (hwf.2 _ (slookup_mem hl)).2 (b, e) (slookup_mem hlook)

/-- The matrix computed by `calc_epsilon_closure_matrix` on a well-formed
NFA stores, for each graph node, exactly its epsilon-reachable states. -/
theorem calc_closure_exact (nfa : NFA) (hwf : WfAdj nfa.adjacency_matrix) :
    ∃ M, (nfa.calc_epsilon_closure_matrix).epsilon_closure_matrix = some M ∧
      M.map Prod.fst = nfa.get_all_states ∧
      ∀ r x, x ∈ mget M r ↔
        (r ∈ nfa.get_all_states ∧ Relation.ReflTransGen (epsStep nfa) r x) := by
  obtain ⟨M, hM, hkeys⟩ := calc_matrix_keys nfa
  refine ⟨M, hM, hkeys, ?_⟩
  have hMdef : M = warshall nfa.get_all_states
      (nfa.adjacency_matrix.map (fun p => (p.1, initRow p.1 p.2))) := by
    have := hM
    unfold NFA.calc_epsilon_closure_matrix at this
    cases this
    rfl
  have hm0 : ∀ r, slookup r (nfa.adjacency_matrix.map (fun p => (p.1, initRow p.1 p.2))) =
      (slookup r nfa.adjacency_matrix).map (initRow r) := by
    intro r
    exact slookup_map_pair (fun a inner => initRow a inner) r nfa.adjacency_matrix
  have hmget0 : ∀ r x,
      x ∈ mget (nfa.adjacency_matrix.map (fun p => (p.1, initRow p.1 p.2))) r ↔
        ∃ inner, slookup r nfa.adjacency_matrix = some inner ∧ x ∈ initRow r inner := by
    intro r x
    rw [mget, hm0 r]
    cases hl : slookup r nfa.adjacency_matrix with
    | none => simp
    | some inner => simp
  have hsound0 : ∀ r x,
      x ∈ mget (nfa.adjacency_matrix.map (fun p => (p.1, initRow p.1 p.2))) r →
      Relation.ReflTransGen (epsStep nfa) r x := by
    intro r x hx
    obtain ⟨inner, hl, hx'⟩ := (hmget0 r x).1 hx
    rcases (mem_initRow r x inner).1 hx' with rfl | ⟨p, hp, hpx, hε⟩
    · exact Relation.ReflTransGen.refl
    · refine Relation.ReflTransGen.single ⟨inner, p.2, hl, ?_, hε⟩
      have hnd := sortedKeys_nodup (hwf.2 _ (slookup_mem hl)).1
      have hpm : (x, p.2) ∈ inner := by
        rw [← hpx]
        exact hp
      exact slookup_eq_of_mem hnd hpm
  have hsub0 : ∀ r x,
      x ∈ mget (nfa.adjacency_matrix.map (fun p => (p.1, initRow p.1 p.2))) r →
      x ∈ nfa.get_all_states := by
    intro r x hx
    obtain ⟨inner, hl, hx'⟩ := (hmget0 r x).1 hx
    rcases (mem_initRow r x inner).1 hx' with rfl | ⟨p, hp, hpx, _⟩
    · exact (slookup_isSome_iff_mem_keys x nfa.adjacency_matrix).1 (by simp [hl])
    · exact hpx ▸ (hwf.2 _ (slookup_mem hl)).2 p hp
  have hcomp0 : ∀ r, r ∈ nfa.get_all_states → ∀ x,
      BddReach (epsStep nfa) (fun _ => False) r x →
      x ∈ mget (nfa.adjacency_matrix.map (fun p => (p.1, initRow p.1 p.2))) r := by
    intro r hr x hx
    have hsome : ∃ inner, slookup r nfa.adjacency_matrix = some inner := by
      have := (slookup_isSome_iff_mem_keys r nfa.adjacency_matrix).2 hr
      cases hl : slookup r nfa.adjacency_matrix with
      | none => rw [hl] at this; cases this
      | some inner => exact ⟨inner, rfl⟩
    obtain ⟨inner, hl⟩ := hsome
    refine (hmget0 r x).2 ⟨inner, hl, ?_⟩
    cases hx with
    | refl => exact (mem_initRow r r inner).2 (Or.inl rfl)
    | single hstep =>
      obtain ⟨inner', e, hl', hlook, hε⟩ := hstep
      rw [hl] at hl'
      cases hl'
      exact (mem_initRow r x inner).2 (Or.inr ⟨(x, e), slookup_mem hlook, rfl, hε⟩)
    | comp _ hb _ => exact hb.elim
  have hres := warshall_rounds (epsStep nfa) nfa.get_all_states nfa.get_all_states
    (fun _ => False) (nfa.adjacency_matrix.map (fun p => (p.1, initRow p.1 p.2)))
    (fun k hk => hk) hsound0 hsub0 hcomp0
  intro r x
  rw [hMdef]
  unfold warshall
  constructor
  · intro hx
    have hr : r ∈ nfa.get_all_states := by
      have hkeysM : (warshall nfa.get_all_states
          (nfa.adjacency_matrix.map (fun p => (p.1, initRow p.1 p.2)))).map Prod.fst =
          nfa.get_all_states := hMdef ▸ hkeys
      by_contra hr
      have hnone : slookup r (warshall nfa.get_all_states
          (nfa.adjacency_matrix.map (fun p => (p.1, initRow p.1 p.2)))) = none := by
        apply slookup_eq_none
        rw [hkeysM]
        exact hr
      unfold warshall at hnone
      rw [mget, hnone] at hx
      exact absurd hx (List.not_mem_nil x)
    exact ⟨hr, hres.1 r x hx⟩
  · rintro ⟨hr, hRT⟩
    apply hres.2.2 r hr x
    induction hRT with
    | refl => exact BddReach.refl r
    | @tail b c hab hbc ih =>
      have hb : b ∈ nfa.get_all_states := by
        rcases Relation.ReflTransGen.cases_tail hab with heq | ⟨c', _, hstep⟩
        · rw [heq]
          exact hr
        · exact epsStep_target_mem_keys hwf hstep
      exact BddReach.comp ih (Or.inr hb) (BddReach.single hbc)

/-- C3: after `calc_epsilon_closure_matrix` on a well-formed NFA, the stored
closure of each graph-node state `s` (queried as `closureOf({s})`) is exactly
the set of states reachable from `s` by zero or more epsilon transitions; in
particular `s ∈ closureOf({s})`, and the closure is transitively closed —
the single three-nested-loop pass reaches the fixed point. -/
theorem C3_epsilon_closure_fixed_point (nfa : NFA)
    (hwf : WfAdj nfa.adjacency_matrix) (s : String)
    (hs : s ∈ nfa.get_all_states) :
    ∃ rs, (nfa.calc_epsilon_closure_matrix).get_epsilon_closure [s] = PRes.ok rs ∧
      s ∈ rs ∧
      (∀ x, x ∈ rs ↔ Relation.ReflTransGen (epsStep nfa) s x) ∧
      (∀ t rt, t ∈ rs →
        (nfa.calc_epsilon_closure_matrix).get_epsilon_closure [t] = PRes.ok rt →
        ∀ u ∈ rt, u ∈ rs) := by
  obtain ⟨M, hM, hkeys, hchar⟩ := calc_closure_exact nfa hwf
  have hsM : (slookup s M).isSome = true :=
    (slookup_isSome_iff_mem_keys s M).2 (by rw [hkeys]; exact hs)
  rw [get_epsilon_closure_some hM, if_pos (by simp [hsM])]
  have hmem : ∀ x, (x ∈ [s].foldl
      (fun acc s' => (mget M s').foldl (fun a t => sinsert t a) acc) []) ↔
      x ∈ mget M s := by
    intro x
    rw [mem_closure_fold]
    simp
  refine ⟨_, rfl, ?_, ?_, ?_⟩
  · exact (hmem s).2 ((hchar s s).2 ⟨hs, Relation.ReflTransGen.refl⟩)
  · intro x
    rw [hmem x, hchar s x]
    constructor
    · rintro ⟨_, h⟩
      exact h
    · intro h
      exact ⟨hs, h⟩
  · intro t rt ht hrt u hu
    have hst : Relation.ReflTransGen (epsStep nfa) s t :=
      ((hchar s t).1 ((hmem t).1 ht)).2
    rw [get_epsilon_closure_some hM] at hrt
    split at hrt
    · next hc =>
      cases hrt
      have hut : u ∈ mget M t := by
        have := (mem_closure_fold [t] M [] u).1 hu
        simpa using this
      have htu : Relation.ReflTransGen (epsStep nfa) t u := ((hchar t u).1 hut).2
      exact (hmem u).2 ((hchar s u).2 ⟨hs, hst.trans htu⟩)
    · cases hrt

/-- Witness for C3: the one-edge NFA `X --eps--> Y` satisfies the hypotheses
and its closure of X is exactly the epsilon-reachability set. -/
theorem C3_epsilon_closure_fixed_point_witness :
    ∃ rs, ((NFA.add_transfer_rule NFA.new "X" "ɛ" "Y").calc_epsilon_closure_matrix).get_epsilon_closure
        ["X"] = PRes.ok rs ∧
      "X" ∈ rs ∧
      (∀ x, x ∈ rs ↔
        Relation.ReflTransGen (epsStep (NFA.add_transfer_rule NFA.new "X" "ɛ" "Y")) "X" x) ∧
      (∀ t rt, t ∈ rs →
        ((NFA.add_transfer_rule NFA.new "X" "ɛ" "Y").calc_epsilon_closure_matrix).get_epsilon_closure
          [t] = PRes.ok rt →
        ∀ u ∈ rt, u ∈ rs) :=
  C3_epsilon_closure_fixed_point (NFA.add_transfer_rule NFA.new "X" "ɛ" "Y")
    (by decide) "X" (by
      have hall : (NFA.add_transfer_rule NFA.new "X" "ɛ" "Y").get_all_states =
          ["X", "Y"] := by decide
      rw [hall]
      exact List.mem_cons_self _ _)

/-! Invariants of the subset-construction worklist loop (claims C1, C2). -/

theorem pair_eq_of_snd_nodup {α β : Type} {l : List (α × β)}
    (h : (l.map Prod.snd).Nodup) {p q : α × β} (hp : p ∈ l) (hq : q ∈ l)
    (he : p.2 = q.2) : p = q := by
  induction l with
  | nil => simp at hp
  | cons r l ih =>
    simp only [List.map_cons, List.nodup_cons] at h
    rcases List.mem_cons.1 hp with rfl | hp'
    · rcases List.mem_cons.1 hq with rfl | hq'
      · rfl
      · exact absurd (he ▸ List.mem_map_of_mem Prod.snd hq') h.1
    · rcases List.mem_cons.1 hq with rfl | hq'
      · exact absurd (he ▸ List.mem_map_of_mem Prod.snd hp') h.1
      · exact ih h.2 hp' hq'

theorem pair_eq_of_fst_nodup {α β : Type} {l : List (α × β)}
    (h : (l.map Prod.fst).Nodup) {p q : α × β} (hp : p ∈ l) (hq : q ∈ l)
    (he : p.1 = q.1) : p = q := by
  induction l with
  | nil => simp at hp
  | cons r l ih =>
    simp only [List.map_cons, List.nodup_cons] at h
    rcases List.mem_cons.1 hp with rfl | hp'
    · rcases List.mem_cons.1 hq with rfl | hq'
      · rfl
      · exact absurd (he ▸ List.mem_map_of_mem Prod.fst hq') h.1
    · rcases List.mem_cons.1 hq with rfl | hq'
      · exact absurd (he ▸ List.mem_map_of_mem Prod.fst hp') h.1
      · exact ih h.2 hp' hq'

theorem klookup_none_iff {k : List String} {m : Known} :
    klookup k m = none ↔ k ∉ m.map Prod.fst := by
  constructor
  · intro h hk
    rcases List.mem_map.1 hk with ⟨p, hp, rfl⟩
    have := klookup_isSome_of_mem (show (p.1, p.2) ∈ m from hp)
    rw [h] at this
    cases this
  · intro h
    cases hl : klookup k m with
    | none => rfl
    | some v =>
      exact absurd (List.mem_map_of_mem Prod.fst (klookup_mem hl)) h

theorem nodup_append_singleton {α : Type} {l : List α} {a : α}
    (hl : l.Nodup) (ha : a ∉ l) : (l ++ [a]).Nodup := by
  rw [List.nodup_append]
  exact ⟨hl, List.nodup_singleton a, by simpa using ha⟩

theorem edgeMem_nil (a inp b : String) : ¬ edgeMem [] a inp b := by
  rintro ⟨inner, e, hl, _, _⟩
  simp [slookup] at hl

/-- Sortedness of an adjacency structure (outer and inner key order). -/
abbrev SortedAdj (adj : SMap (SMap (List String))) : Prop :=
  SortedKeys adj ∧ ∀ p ∈ adj, SortedKeys p.2

theorem mem_sinsertWith_cases {α : Type} {f : α → α} {d : α} {k : String}
    {m : SMap α} {p : String × α} (hp : p ∈ sinsertWith f d k m) :
    p ∈ m ∨ p.1 = k ∧ (p.2 = d ∨ ∃ v, (k, v) ∈ m ∧ p.2 = f v) := by
  induction m with
  | nil =>
    simp only [sinsertWith] at hp
    rcases List.mem_singleton.1 hp with rfl
    exact Or.inr ⟨rfl, Or.inl rfl⟩
  | cons q l ih =>
    simp only [sinsertWith] at hp
    split at hp
    · next he =>
      rcases List.mem_cons.1 hp with rfl | hp'
      · exact Or.inr ⟨he.symm, Or.inr ⟨q.2, by
          rw [he]
          exact List.mem_cons_self _ _, rfl⟩⟩
      · exact Or.inl (List.mem_cons_of_mem _ hp')
    · split at hp
      · rcases List.mem_cons.1 hp with rfl | hp'
        · exact Or.inr ⟨rfl, Or.inl rfl⟩
        · exact Or.inl hp'
      · rcases List.mem_cons.1 hp with rfl | hp'
        · exact Or.inl (List.mem_cons_self _ _)
        · rcases ih hp' with h | ⟨h1, h2⟩
          · exact Or.inl (List.mem_cons_of_mem _ h)
          · refine Or.inr ⟨h1, ?_⟩
            rcases h2 with h2 | ⟨v, hv, h2⟩
            · exact Or.inl h2
            · exact Or.inr ⟨v, List.mem_cons_of_mem _ hv, h2⟩

theorem sortedKeys_sinsertWith {α : Type} {f : α → α} {d : α} {k : String}
    {m : SMap α} (h : SortedKeys m) : SortedKeys (sinsertWith f d k m) := by
  unfold SortedKeys
  rw [keys_sinsertWith]
  exact sinsert_sorted h

theorem sortedKeys_tryInsert {α : Type} {k : String} {v : α} {m : SMap α}
    (h : SortedKeys m) : SortedKeys (tryInsert k v m) := by
  unfold tryInsert
  cases slookup k m with
  | some w => exact h
  | none => exact sortedKeys_sinsertWith h

theorem sortedAdj_add_transfer_rule {n : NFA} (hs : SortedAdj n.adjacency_matrix)
    (f i t : String) : SortedAdj (n.add_transfer_rule f i t).adjacency_matrix := by
  constructor
  · exact sortedKeys_tryInsert (sortedKeys_sinsertWith hs.1)
  · intro p hp
    unfold NFA.add_transfer_rule at hp
    simp only at hp
    unfold tryInsert at hp
    have hinner : ∀ q, q ∈ sinsertWith (addEdge t i) (addEdge t i []) f n.adjacency_matrix →
        SortedKeys q.2 := by
      intro q hq
      rcases mem_sinsertWith_cases hq with h | ⟨_, h2⟩
      · exact hs.2 q h
      · rcases h2 with h2 | ⟨v, hv, h2⟩
        · rw [h2]
          unfold addEdge
          exact sortedKeys_sinsertWith (by unfold SortedKeys; simp)
        · rw [h2]
          exact sortedKeys_sinsertWith (hs.2 (f, v) hv)
    split at hp
    · exact hinner p hp
    · rcases mem_sinsertWith_cases hp with h | ⟨_, h2⟩
      · exact hinner p h
      · rcases h2 with h2 | ⟨v, hv, h2⟩
        · rw [h2]
          unfold SortedKeys
          simp
        · rw [h2]
          exact hinner (t, v) hv

theorem mem_edge_addEdge {inner : SMap (List String)} (hsi : SortedKeys inner)
    (t i b inp : String) :
    (∃ e, slookup b (addEdge t i inner) = some e ∧ inp ∈ e) ↔
      (∃ e, slookup b inner = some e ∧ inp ∈ e) ∨ (b = t ∧ inp = i) := by
  unfold addEdge
  by_cases hb : b = t
  · rw [hb, slookup_sinsertWith_self _ _ _ hsi]
    cases hl : slookup t inner with
    | none =>
      constructor
      · rintro ⟨e, he, hm⟩
        cases he
        exact Or.inr ⟨rfl, List.mem_singleton.1 hm⟩
      · rintro (⟨e, he, _⟩ | ⟨_, hi⟩)
        · cases he
        · exact ⟨[i], rfl, by rw [hi]; exact List.mem_singleton.2 rfl⟩
    | some e0 =>
      constructor
      · rintro ⟨e, he, hm⟩
        cases he
        rcases (mem_sinsert inp i e0).1 hm with hi | hm'
        · exact Or.inr ⟨rfl, hi⟩
        · exact Or.inl ⟨e0, rfl, hm'⟩
      · rintro (⟨e, he, hm⟩ | ⟨_, hi⟩)
        · cases he
          exact ⟨_, rfl, (mem_sinsert inp i e0).2 (Or.inr hm)⟩
        · exact ⟨_, rfl, (mem_sinsert inp i e0).2 (Or.inl hi)⟩
  · rw [slookup_sinsertWith_ne _ _ _ hb]
    constructor
    · intro h
      exact Or.inl h
    · rintro (h | ⟨he, _⟩)
      · exact h
      · exact absurd he hb

/-- The complete effect of `add_transfer_rule` on edge membership: the old
edges plus the one new labeled arc. -/
theorem edgeMem_add_transfer_rule {n : NFA} (hs : SortedAdj n.adjacency_matrix)
    (f i t a inp b : String) :
    edgeMem (n.add_transfer_rule f i t).adjacency_matrix a inp b ↔
      edgeMem n.adjacency_matrix a inp b ∨ (a = f ∧ inp = i ∧ b = t) := by
  have hadj1 : slookup f (sinsertWith (addEdge t i) (addEdge t i []) f n.adjacency_matrix) =
      some (addEdge t i ((slookup f n.adjacency_matrix).getD [])) := by
    rw [slookup_sinsertWith_self _ _ _ hs.1]
    cases slookup f n.adjacency_matrix <;> rfl
  show edgeMem (tryInsert t []
      (sinsertWith (addEdge t i) (addEdge t i []) f n.adjacency_matrix)) a inp b ↔ _
  by_cases ha : a = f
  · rw [ha]
    have hsi : SortedKeys ((slookup f n.adjacency_matrix).getD []) := by
      cases hl : slookup f n.adjacency_matrix with
      | none =>
        unfold SortedKeys
        simp
      | some inner => exact hs.2 (f, inner) (slookup_mem hl)
    have hlook : slookup f (tryInsert t []
        (sinsertWith (addEdge t i) (addEdge t i []) f n.adjacency_matrix)) =
        some (addEdge t i ((slookup f n.adjacency_matrix).getD [])) := by
      unfold tryInsert
      cases hlt : slookup t (sinsertWith (addEdge t i) (addEdge t i []) f n.adjacency_matrix) with
      | some w => exact hadj1
      | none =>
        have hft : f ≠ t := by
          intro he
          rw [he] at hadj1 hlt
          rw [hadj1] at hlt
          cases hlt
        rw [slookup_sinsertWith_ne _ _ _ hft]
        exact hadj1
    constructor
    · rintro ⟨inner, e, hl, hlb, hm⟩
      rw [hlook] at hl
      cases hl
      rcases (mem_edge_addEdge hsi t i b inp).1 ⟨e, hlb, hm⟩ with ⟨e', he', hm'⟩ | ⟨hbt, hii⟩
      · cases hl2 : slookup f n.adjacency_matrix with
        | none =>
          rw [hl2] at he'
          cases he'
        | some inner0 =>
          rw [hl2] at he'
          exact Or.inl ⟨inner0, e', hl2, he', hm'⟩
      · exact Or.inr ⟨rfl, hii, hbt⟩
    · rintro (⟨inner, e, hl, hlb, hm⟩ | ⟨_, hii, hbt⟩)
      · obtain ⟨e', he', hm'⟩ := (mem_edge_addEdge hsi t i b inp).2
          (Or.inl ⟨e, by rw [hl]; exact hlb, hm⟩)
        exact ⟨_, e', hlook, he', hm'⟩
      · obtain ⟨e', he', hm'⟩ := (mem_edge_addEdge hsi t i b inp).2 (Or.inr ⟨hbt, hii⟩)
        exact ⟨_, e', hlook, he', hm'⟩
  · have hmain : slookup a (tryInsert t []
        (sinsertWith (addEdge t i) (addEdge t i []) f n.adjacency_matrix)) =
        slookup a n.adjacency_matrix ∨
        (slookup a (tryInsert t []
          (sinsertWith (addEdge t i) (addEdge t i []) f n.adjacency_matrix)) = some [] ∧
          slookup a n.adjacency_matrix = none) := by
      have ha1 : slookup a (sinsertWith (addEdge t i) (addEdge t i []) f n.adjacency_matrix) =
          slookup a n.adjacency_matrix := slookup_sinsertWith_ne _ _ _ ha
      unfold tryInsert
      cases hlt : slookup t (sinsertWith (addEdge t i) (addEdge t i []) f n.adjacency_matrix) with
      | some w => exact Or.inl ha1
      | none =>
        by_cases hat : a = t
        · rw [hat, slookup_sinsertWith_self _ _ _ (sortedKeys_sinsertWith hs.1)]
          rw [hlt]
          right
          refine ⟨rfl, ?_⟩
          rw [← hat, ← ha1]
          rw [hat]
          exact hlt
        · rw [slookup_sinsertWith_ne _ _ _ hat]
          exact Or.inl ha1
    rcases hmain with hlook | ⟨hlook, hnone⟩
    · constructor
      · rintro ⟨inner, e, hl, hlb, hm⟩
        rw [hlook] at hl
        exact Or.inl ⟨inner, e, hl, hlb, hm⟩
      · rintro (⟨inner, e, hl, hlb, hm⟩ | ⟨he, _⟩)
        · exact ⟨inner, e, by rw [hlook]; exact hl, hlb, hm⟩
        · exact absurd he ha
    · constructor
      · rintro ⟨inner, e, hl, hlb, hm⟩
        rw [hlook] at hl
        cases hl
        cases hlb
      · rintro (⟨inner, e, hl, hlb, hm⟩ | ⟨he, _⟩)
        · rw [hnone] at hl
          cases hl
        · exact absurd he ha

theorem natRepr_injective : Function.Injective Nat.repr := fun _ _ h => natRepr_inj h

theorem snd_nodup_of_kids {known : Known}
    (h : known.map Prod.snd = (List.range known.length).map Nat.repr) :
    (known.map Prod.snd).Nodup := by
  rw [h]
  exact (List.nodup_range known.length).map natRepr_injective

theorem repr_len_fresh {known : Known}
    (h : known.map Prod.snd = (List.range known.length).map Nat.repr) :
    Nat.repr known.length ∉ known.map Prod.snd := by
  rw [h]
  intro hmem
  rcases List.mem_map.1 hmem with ⟨j, hj, he⟩
  rw [natRepr_inj he] at hj
  exact absurd (List.mem_range.1 hj) (lt_irrefl _)

theorem any_intersect_iff (fin t : List String) :
    (fin.any fun s => decide (s ∈ t)) = true ↔ ∃ s ∈ fin, s ∈ t := by
  rw [List.any_eq_true]
  simp

/-- The invariant fields of the subset-construction loop that hold at every
point, including mid-way through the processing of a dequeued state. -/
structure BaseInv (nfa dfa : NFA) (queue : List (List String)) (known : Known) :
    Prop where
  kids : known.map Prod.snd = (List.range known.length).map Nat.repr
  kkeys : (known.map Prod.fst).Nodup
  init0 : dfa.initial_states = ["0"]
  sadj : SortedAdj dfa.adjacency_matrix
  qknown : ∀ A ∈ queue, ∃ a, (A, a) ∈ known
  edges : ∀ a inp b, edgeMem dfa.adjacency_matrix a inp b →
    inp ∈ nfa.feasible_inputs ∧
    ∃ A B, (A, a) ∈ known ∧ (B, b) ∈ known ∧
      nfa.get_epsilon_closure (nfa.straight_reachable_states A inp) = PRes.ok B
  nodes : ∀ a ∈ dfa.get_all_states, ∃ A, (A, a) ∈ known
  fin_sound : ∀ b ∈ dfa.finite_states, ∃ B, (B, b) ∈ known ∧
    (∃ s ∈ nfa.finite_states, s ∈ B) ∧ ∃ a inp, edgeMem dfa.adjacency_matrix a inp b
  fin_comp : ∀ a inp B b, edgeMem dfa.adjacency_matrix a inp b → (B, b) ∈ known →
    (∃ s ∈ nfa.finite_states, s ∈ B) → b ∈ dfa.finite_states

/-- Effect of one `stepInput` on the base invariant, plus bookkeeping used
to chain the per-input steps. -/
theorem stepInput_spec (nfa : NFA) (front : List String) (frontId : String)
    (dfa : NFA) (queue : List (List String)) (known : Known) (inp : String)
    (st' : NFA × List (List String) × Known)
    (hstep : stepInput nfa front frontId (dfa, queue, known) inp = some st')
    (hbase : BaseInv nfa dfa queue known)
    (hinp : inp ∈ nfa.feasible_inputs)
    (hfr : (front, frontId) ∈ known) :
    BaseInv nfa st'.1 st'.2.1 st'.2.2 ∧
    (∃ ext, st'.2.2 = known ++ ext) ∧
    (∃ qext, st'.2.1 = queue ++ qext) ∧
    (∀ a i b, edgeMem dfa.adjacency_matrix a i b →
      edgeMem st'.1.adjacency_matrix a i b) ∧
    (∀ b ∈ dfa.finite_states, b ∈ st'.1.finite_states) ∧
    (∀ p : List String × String, p ∈ st'.2.2 → p ∈ known ∨ p.1 ∈ st'.2.1) ∧
    (∃ B b, nfa.get_epsilon_closure (nfa.straight_reachable_states front inp) =
        PRes.ok B ∧
      (B, b) ∈ st'.2.2 ∧ edgeMem st'.1.adjacency_matrix frontId inp b) := by
  unfold stepInput at hstep
  cases hok : nfa.get_epsilon_closure (nfa.straight_reachable_states front inp) with
  | panicked => rw [hok] at hstep; cases hstep
  | err e => rw [hok] at hstep; cases hstep
  | ok t =>
    rw [hok] at hstep
    simp only [Option.some.injEq] at hstep
    -- name the pieces
    by_cases hk : (klookup t known).isSome = true
    · -- t is already known
      obtain ⟨tid0, htid0⟩ : ∃ v, klookup t known = some v := by
        cases hl : klookup t known with
        | none => rw [hl] at hk; cases hk
        | some v => exact ⟨v, rfl⟩
      have htmem : (t, tid0) ∈ known := klookup_mem htid0
      have hst' : st' =
          (if (nfa.finite_states.any fun s => decide (s ∈ t)) = true then
            (dfa.add_transfer_rule frontId inp tid0).add_finite_states [tid0]
          else dfa.add_transfer_rule frontId inp tid0, queue, known) := by
        rw [← hstep]
        simp [hk, htid0]
      have hedge2 : ∀ a i b, edgeMem st'.1.adjacency_matrix a i b ↔
          (edgeMem dfa.adjacency_matrix a i b ∨ (a = frontId ∧ i = inp ∧ b = tid0)) := by
        intro a i b
        rw [hst']
        have : ((if (nfa.finite_states.any fun s => decide (s ∈ t)) = true then
            (dfa.add_transfer_rule frontId inp tid0).add_finite_states [tid0]
            else dfa.add_transfer_rule frontId inp tid0, queue,
              known) : NFA × List (List String) × Known).1.adjacency_matrix =
            (dfa.add_transfer_rule frontId inp tid0).adjacency_matrix := by
          split <;> rfl
        rw [this]
        exact edgeMem_add_transfer_rule hbase.sadj frontId inp tid0 a i b
      have hfin2 : ∀ b, b ∈ st'.1.finite_states ↔
          ((nfa.finite_states.any fun s => decide (s ∈ t)) = true ∧ b = tid0) ∨
            b ∈ dfa.finite_states := by
        intro b
        rw [hst']
        split
        · next hc =>
          show b ∈ sinsert tid0 _ ↔ _
          rw [mem_sinsert]
          show _ ∨ b ∈ dfa.finite_states ↔ _
          constructor
          · rintro (h | h)
            · exact Or.inl ⟨hc, h⟩
            · exact Or.inr h
          · rintro (⟨_, h⟩ | h)
            · exact Or.inl h
            · exact Or.inr h
        · next hc =>
          show b ∈ dfa.finite_states ↔ _
          constructor
          · intro h
            exact Or.inr h
          · rintro (⟨hcc, _⟩ | h)
            · exact absurd hcc hc
            · exact h
      have hq2 : st'.2.1 = queue := by rw [hst']
      have hkn2 : st'.2.2 = known := by rw [hst']
      refine ⟨?_, ⟨[], by rw [hkn2, List.append_nil]⟩, ⟨[], by rw [hq2, List.append_nil]⟩,
        ?_, ?_, ?_, ?_⟩
      · constructor
        · rw [hkn2]; exact hbase.kids
        · rw [hkn2]; exact hbase.kkeys
        · rw [hst']
          have : st'.1.initial_states = dfa.initial_states := by
            rw [hst']; split <;> rfl
          rw [← hst', this]; exact hbase.init0
        · have : st'.1.adjacency_matrix =
              (dfa.add_transfer_rule frontId inp tid0).adjacency_matrix := by
            rw [hst']; split <;> rfl
          rw [this]
          exact (sortedAdj_add_transfer_rule hbase.sadj frontId inp tid0)
        · rw [hq2, hkn2]; exact hbase.qknown
        · intro a i b hm
          rcases (hedge2 a i b).1 hm with hm' | ⟨rfl, rfl, rfl⟩
          · obtain ⟨hf, A, B, hA, hB, hcl⟩ := hbase.edges a i b hm'
            exact ⟨hf, A, B, by rw [hkn2]; exact hA, by rw [hkn2]; exact hB, hcl⟩
          · exact ⟨hinp, front, t, by rw [hkn2]; exact hfr, by rw [hkn2]; exact htmem, hok⟩
        · intro a ha
          have hadjst : st'.1.adjacency_matrix =
              (dfa.add_transfer_rule frontId inp tid0).adjacency_matrix := by
            rw [hst']; split <;> rfl
          have hnodes : st'.1.get_all_states =
              (dfa.add_transfer_rule frontId inp tid0).get_all_states := by
            unfold NFA.get_all_states
            rw [hadjst]
          rw [hnodes] at ha
          rcases (mem_keys_add_transfer_rule dfa frontId inp tid0 a).1 ha with rfl | rfl | h
          · exact ⟨front, by rw [hkn2]; exact hfr⟩
          · exact ⟨t, by rw [hkn2]; exact htmem⟩
          · obtain ⟨A, hA⟩ := hbase.nodes a h
            exact ⟨A, by rw [hkn2]; exact hA⟩
        · intro b hb
          rcases (hfin2 b).1 hb with ⟨hc, rfl⟩ | hb'
          · refine ⟨t, by rw [hkn2]; exact htmem, (any_intersect_iff _ _).1 hc,
              frontId, inp, (hedge2 frontId inp b).2 (Or.inr ⟨rfl, rfl, rfl⟩)⟩
          · obtain ⟨B, hB, hint, a, i, he⟩ := hbase.fin_sound b hb'
            exact ⟨B, by rw [hkn2]; exact hB, hint, a, i, (hedge2 a i b).2 (Or.inl he)⟩
        · intro a i B b hm hB hint
          rw [hkn2] at hB
          rcases (hedge2 a i b).1 hm with hm' | ⟨_, _, rfl⟩
          · exact (hfin2 b).2 (Or.inr (hbase.fin_comp a i B b hm' hB hint))
          · have hBt : B = t := by
              have := pair_eq_of_snd_nodup (snd_nodup_of_kids hbase.kids) hB htmem rfl
              exact congrArg Prod.fst this
            refine (hfin2 b).2 (Or.inl ⟨?_, rfl⟩)
            rw [any_intersect_iff]
            rw [hBt] at hint
            exact hint
      · intro a i b hm
        exact (hedge2 a i b).2 (Or.inl hm)
      · intro b hb
        exact (hfin2 b).2 (Or.inr hb)
      · intro p hp
        rw [hkn2] at hp
        exact Or.inl hp
      · exact ⟨t, tid0, rfl, by rw [hkn2]; exact htmem, (hedge2 frontId inp tid0).2
          (Or.inr ⟨rfl, rfl, rfl⟩)⟩
    · -- t is new: pushed and registered with the next id
      have hknone : klookup t known = none := by
        cases hl : klookup t known with
        | none => rfl
        | some v => rw [hl] at hk; simp at hk
      have htfresh : t ∉ known.map Prod.fst := klookup_none_iff.1 hknone
      have hst' : st' =
          (if (nfa.finite_states.any fun s => decide (s ∈ t)) = true then
            (dfa.add_transfer_rule frontId inp (Nat.repr known.length)).add_finite_states
              [Nat.repr known.length]
          else dfa.add_transfer_rule frontId inp (Nat.repr known.length),
            queue ++ [t], known ++ [(t, Nat.repr known.length)]) := by
        rw [← hstep]
        simp [hknone]
      have htmem : (t, Nat.repr known.length) ∈ known ++ [(t, Nat.repr known.length)] :=
        List.mem_append.2 (Or.inr (List.mem_singleton.2 rfl))
      have hedge2 : ∀ a i b, edgeMem st'.1.adjacency_matrix a i b ↔
          (edgeMem dfa.adjacency_matrix a i b ∨
            (a = frontId ∧ i = inp ∧ b = Nat.repr known.length)) := by
        intro a i b
        rw [hst']
        have : ((if (nfa.finite_states.any fun s => decide (s ∈ t)) = true then
            (dfa.add_transfer_rule frontId inp (Nat.repr known.length)).add_finite_states
              [Nat.repr known.length]
            else dfa.add_transfer_rule frontId inp (Nat.repr known.length), queue ++ [t],
              known ++ [(t, Nat.repr known.length)]) :
              NFA × List (List String) × Known).1.adjacency_matrix =
            (dfa.add_transfer_rule frontId inp (Nat.repr known.length)).adjacency_matrix := by
          split <;> rfl
        rw [this]
        exact edgeMem_add_transfer_rule hbase.sadj frontId inp (Nat.repr known.length) a i b
      have hfin2 : ∀ b, b ∈ st'.1.finite_states ↔
          ((nfa.finite_states.any fun s => decide (s ∈ t)) = true ∧
            b = Nat.repr known.length) ∨ b ∈ dfa.finite_states := by
        intro b
        rw [hst']
        split
        · next hc =>
          show b ∈ sinsert (Nat.repr known.length) _ ↔ _
          rw [mem_sinsert]
          show _ ∨ b ∈ dfa.finite_states ↔ _
          constructor
          · rintro (h | h)
            · exact Or.inl ⟨hc, h⟩
            · exact Or.inr h
          · rintro (⟨_, h⟩ | h)
            · exact Or.inl h
            · exact Or.inr h
        · next hc =>
          show b ∈ dfa.finite_states ↔ _
          constructor
          · intro h
            exact Or.inr h
          · rintro (⟨hcc, _⟩ | h)
            · exact absurd hcc hc
            · exact h
      have hq2 : st'.2.1 = queue ++ [t] := by rw [hst']
      have hkn2 : st'.2.2 = known ++ [(t, Nat.repr known.length)] := by rw [hst']
      have hmemkn2 : ∀ p : List String × String, p ∈ known → p ∈ st'.2.2 := by
        intro p hp
        rw [hkn2]
        exact List.mem_append.2 (Or.inl hp)
      refine ⟨?_, ⟨[(t, Nat.repr known.length)], hkn2⟩, ⟨[t], hq2⟩, ?_, ?_, ?_, ?_⟩
      · constructor
        · rw [hkn2]
          rw [List.map_append, List.length_append, hbase.kids]
          simp [List.range_succ]
        · rw [hkn2, List.map_append]
          exact nodup_append_singleton hbase.kkeys (by simpa using htfresh)
        · have : st'.1.initial_states = dfa.initial_states := by
            rw [hst']; split <;> rfl
          rw [this]; exact hbase.init0
        · have : st'.1.adjacency_matrix =
              (dfa.add_transfer_rule frontId inp (Nat.repr known.length)).adjacency_matrix := by
            rw [hst']; split <;> rfl
          rw [this]
          exact sortedAdj_add_transfer_rule hbase.sadj frontId inp (Nat.repr known.length)
        · intro A hA
          rw [hq2] at hA
          rcases List.mem_append.1 hA with hA | hA
          · obtain ⟨a, ha⟩ := hbase.qknown A hA
            exact ⟨a, hmemkn2 _ ha⟩
          · rcases List.mem_singleton.1 hA with rfl
            exact ⟨Nat.repr known.length, by rw [hkn2]; exact htmem⟩
        · intro a i b hm
          rcases (hedge2 a i b).1 hm with hm' | ⟨rfl, rfl, rfl⟩
          · obtain ⟨hf, A, B, hA, hB, hcl⟩ := hbase.edges a i b hm'
            exact ⟨hf, A, B, hmemkn2 _ hA, hmemkn2 _ hB, hcl⟩
          · exact ⟨hinp, front, t, hmemkn2 _ hfr, by rw [hkn2]; exact htmem, hok⟩
        · intro a ha
          have hadjst : st'.1.adjacency_matrix =
              (dfa.add_transfer_rule frontId inp (Nat.repr known.length)).adjacency_matrix := by
            rw [hst']; split <;> rfl
          have hnodes : st'.1.get_all_states =
              (dfa.add_transfer_rule frontId inp (Nat.repr known.length)).get_all_states := by
            unfold NFA.get_all_states
            rw [hadjst]
          rw [hnodes] at ha
          rcases (mem_keys_add_transfer_rule dfa frontId inp (Nat.repr known.length) a).1 ha
            with rfl | rfl | h
          · exact ⟨front, hmemkn2 _ hfr⟩
          · exact ⟨t, by rw [hkn2]; exact htmem⟩
          · obtain ⟨A, hA⟩ := hbase.nodes a h
            exact ⟨A, hmemkn2 _ hA⟩
        · intro b hb
          rcases (hfin2 b).1 hb with ⟨hc, rfl⟩ | hb'
          · refine ⟨t, by rw [hkn2]; exact htmem, (any_intersect_iff _ _).1 hc,
              frontId, inp, (hedge2 frontId inp _).2 (Or.inr ⟨rfl, rfl, rfl⟩)⟩
          · obtain ⟨B, hB, hint, a, i, he⟩ := hbase.fin_sound b hb'
            exact ⟨B, hmemkn2 _ hB, hint, a, i, (hedge2 a i b).2 (Or.inl he)⟩
        · intro a i B b hm hB hint
          rw [hkn2] at hB
          rcases (hedge2 a i b).1 hm with hm' | ⟨_, _, rfl⟩
          · rcases List.mem_append.1 hB with hB' | hB'
            · exact (hfin2 b).2 (Or.inr (hbase.fin_comp a i B b hm' hB' hint))
            · rcases List.mem_singleton.1 hB' with heq
              exfalso
              obtain ⟨_, A', B', _, hB'', _⟩ := hbase.edges a i b hm'
              have hbid : b = Nat.repr known.length := congrArg Prod.snd heq
              apply repr_len_fresh hbase.kids
              rw [← hbid]
              exact List.mem_map_of_mem Prod.snd hB''
          · rcases List.mem_append.1 hB with hB' | hB'
            · exfalso
              apply repr_len_fresh hbase.kids
              exact List.mem_map_of_mem Prod.snd hB'
            · rcases List.mem_singleton.1 hB' with heq
              have hBt : B = t := congrArg Prod.fst heq
              refine (hfin2 _).2 (Or.inl ⟨?_, rfl⟩)
              rw [any_intersect_iff]
              rw [hBt] at hint
              exact hint
      · intro a i b hm
        exact (hedge2 a i b).2 (Or.inl hm)
      · intro b hb
        exact (hfin2 b).2 (Or.inr hb)
      · intro p hp
        rw [hkn2] at hp
        rcases List.mem_append.1 hp with hp' | hp'
        · exact Or.inl hp'
        · rcases List.mem_singleton.1 hp' with rfl
          refine Or.inr ?_
          rw [hq2]
          exact List.mem_append.2 (Or.inr (List.mem_singleton.2 rfl))
      · exact ⟨t, Nat.repr known.length, rfl, by rw [hkn2]; exact htmem,
          (hedge2 frontId inp (Nat.repr known.length)).2 (Or.inr ⟨rfl, rfl, rfl⟩)⟩

/-- Chained effect of the whole per-input fold for one dequeued state. -/
theorem foldInputs_spec (nfa : NFA) (front : List String) (frontId : String) :
    ∀ (inps : List String) (dfa : NFA) (queue : List (List String)) (known : Known)
      (res : NFA × List (List String) × Known),
    foldInputs nfa front frontId inps (dfa, queue, known) = some res →
    BaseInv nfa dfa queue known →
    (∀ inp ∈ inps, inp ∈ nfa.feasible_inputs) →
    (front, frontId) ∈ known →
    BaseInv nfa res.1 res.2.1 res.2.2 ∧
    (∃ ext, res.2.2 = known ++ ext) ∧
    (∃ qext, res.2.1 = queue ++ qext) ∧
    (∀ a i b, edgeMem dfa.adjacency_matrix a i b →
      edgeMem res.1.adjacency_matrix a i b) ∧
    (∀ p : List String × String, p ∈ res.2.2 → p ∈ known ∨ p.1 ∈ res.2.1) ∧
    (∀ inp ∈ inps, ∃ B b,
      nfa.get_epsilon_closure (nfa.straight_reachable_states front inp) = PRes.ok B ∧
      (B, b) ∈ res.2.2 ∧ edgeMem res.1.adjacency_matrix frontId inp b) := by
  intro inps
  induction inps with
  | nil =>
    intro dfa queue known res h hbase hinps hfr
    unfold foldInputs at h
    cases h
    refine ⟨hbase, ⟨[], by simp⟩, ⟨[], by simp⟩, fun a i b hm => hm,
      fun p hp => Or.inl hp, ?_⟩
    intro inp hinp
    exact absurd hinp (List.not_mem_nil inp)
  | cons inp inps ih =>
    intro dfa queue known res h hbase hinps hfr
    unfold foldInputs at h
    cases hstep : stepInput nfa front frontId (dfa, queue, known) inp with
    | none =>
      rw [hstep] at h
      cases h
    | some st' =>
      rw [hstep] at h
      obtain ⟨hbase', ⟨ext, hext⟩, ⟨qext, hqext⟩, hmono, hfinmono, hnew,
          B, b, hcl, hBmem, hedge⟩ :=
        stepInput_spec nfa front frontId dfa queue known inp st' hstep hbase
          (hinps inp (List.mem_cons_self _ _)) hfr
      obtain ⟨hbaseF, ⟨ext2, hext2⟩, ⟨qext2, hqext2⟩, hmono2, hnew2, hprog⟩ :=
        ih st'.1 st'.2.1 st'.2.2 res h hbase'
          (fun i hi => hinps i (List.mem_cons_of_mem _ hi))
          (by rw [hext]; exact List.mem_append.2 (Or.inl hfr))
      refine ⟨hbaseF,
        ⟨ext ++ ext2, by rw [hext2, hext, List.append_assoc]⟩,
        ⟨qext ++ qext2, by rw [hqext2, hqext, List.append_assoc]⟩,
        fun a i b hm => hmono2 a i b (hmono a i b hm), ?_, ?_⟩
      · intro p hp
        rcases hnew2 p hp with hp' | hp'
        · rcases hnew p hp' with hp'' | hp''
          · exact Or.inl hp''
          · refine Or.inr ?_
            rw [hqext2]
            exact List.mem_append.2 (Or.inl hp'')
        · exact Or.inr hp'
      · intro i hi
        rcases List.mem_cons.1 hi with heq | hi'
        · refine ⟨B, b, heq ▸ hcl, ?_, heq ▸ hmono2 frontId inp b hedge⟩
          rw [hext2]
          exact List.mem_append.2 (Or.inl hBmem)
        · exact hprog i hi'

/-- Invariant of the whole worklist loop: when it reports `done`, the base
invariant holds for the final automaton and every known composite state has
been fully processed. -/
theorem subsetLoop_spec (nfa : NFA) :
    ∀ (fuel : Nat) (dfa : NFA) (queue : List (List String)) (known : Known)
      (d : NFA) (kf : Known),
    subsetLoop nfa fuel dfa queue known = DfaRes.done d kf →
    BaseInv nfa dfa queue known →
    (∀ A a, (A, a) ∈ known → A ∉ queue → ∀ inp ∈ nfa.feasible_inputs,
      ∃ B b, nfa.get_epsilon_closure (nfa.straight_reachable_states A inp) = PRes.ok B ∧
        (B, b) ∈ known ∧ edgeMem dfa.adjacency_matrix a inp b) →
    BaseInv nfa d [] kf ∧
    (∀ A a, (A, a) ∈ kf → ∀ inp ∈ nfa.feasible_inputs,
      ∃ B b, nfa.get_epsilon_closure (nfa.straight_reachable_states A inp) = PRes.ok B ∧
        (B, b) ∈ kf ∧ edgeMem d.adjacency_matrix a inp b) := by
  intro fuel
  induction fuel with
  | zero =>
    intro dfa queue known d kf h hbase hproc
    cases queue with
    | nil =>
      cases h
      exact ⟨hbase, fun A a hA => hproc A a hA (List.not_mem_nil A)⟩
    | cons front rest => cases h
  | succ fuel ih =>
    intro dfa queue known d kf h hbase hproc
    cases queue with
    | nil =>
      cases h
      exact ⟨hbase, fun A a hA => hproc A a hA (List.not_mem_nil A)⟩
    | cons front rest =>
      unfold subsetLoop at h
      split at h
      · cases h
      next frontId hkl =>
        split at h
        case _ st hfold =>
          have hfr : (front, frontId) ∈ known := klookup_mem hkl
          have hbase' : BaseInv nfa dfa rest known :=
            { hbase with
              qknown := fun A hA => hbase.qknown A (List.mem_cons_of_mem _ hA) }
          obtain ⟨hbaseF, ⟨ext, hext⟩, ⟨qext, hqext⟩, hmono, hnew, hprog⟩ :=
            foldInputs_spec nfa front frontId nfa.feasible_inputs dfa rest known st
              hfold hbase' (fun i hi => hi) hfr
          refine ih st.1 st.2.1 st.2.2 d kf h hbaseF ?_
          intro A a hA hAq inp hinp
          by_cases hAf : A = front
          · subst hAf
            have hfr' : (A, frontId) ∈ st.2.2 := by
              rw [hext]
              exact List.mem_append.2 (Or.inl hfr)
            have ha : a = frontId :=
              congrArg Prod.snd (pair_eq_of_fst_nodup hbaseF.kkeys hA hfr' rfl)
            subst ha
            obtain ⟨B, b, hcl, hBm, hED⟩ := hprog inp hinp
            exact ⟨B, b, hcl, hBm, hED⟩
          · rcases hnew (A, a) hA with hAk | hAq'
            · have hAnotq : A ∉ front :: rest := by
                intro hmem
                rcases List.mem_cons.1 hmem with heq | hmem'
                · exact hAf heq
                · refine hAq ?_
                  rw [hqext]
                  exact List.mem_append.2 (Or.inl hmem')
              obtain ⟨B, b, hcl, hBm, hED⟩ := hproc A a hAk hAnotq inp hinp
              refine ⟨B, b, hcl, ?_, hmono a inp b hED⟩
              rw [hext]
              exact List.mem_append.2 (Or.inl hBm)
            · exact absurd hAq' hAq
        case _ => cases h

/-- Top-level specification of `to_dfa` when it completes: the base
invariant holds with an empty queue, and every known composite state is
fully processed. -/
theorem to_dfa_spec (nfa d : NFA) (kf : Known)
    (h : nfa.to_dfa = DfaRes.done d kf) :
    BaseInv nfa d [] kf ∧
    (∀ A a, (A, a) ∈ kf → ∀ inp ∈ nfa.feasible_inputs,
      ∃ B b, nfa.get_epsilon_closure (nfa.straight_reachable_states A inp) = PRes.ok B ∧
        (B, b) ∈ kf ∧ edgeMem d.adjacency_matrix a inp b) := by
  unfold NFA.to_dfa at h
  split at h
  case _ start heq =>
    refine subsetLoop_spec nfa (toDfaFuel nfa) (NFA.new.add_initial_states ["0"])
      [start] [(start, "0")] d kf h ?_ ?_
    · constructor
      · show ["0"] = (List.range 1).map Nat.repr
        rfl
      · simp
      · rfl
      · constructor
        · unfold SortedKeys
          simp [NFA.new, NFA.add_initial_states]
        · intro p hp
          simp [NFA.new, NFA.add_initial_states] at hp
      · intro A hA
        rcases List.mem_singleton.1 hA with rfl
        exact ⟨"0", List.mem_singleton.2 rfl⟩
      · intro a inp b hm
        exact absurd hm (edgeMem_nil a inp b)
      · intro a ha
        simp [NFA.new, NFA.add_initial_states, NFA.get_all_states] at ha
      · intro b hb
        simp [NFA.new, NFA.add_initial_states] at hb
      · intro a inp B b hm
        exact absurd hm (edgeMem_nil a inp b)
    · intro A a hA hAq
      exfalso
      rcases List.mem_singleton.1 hA with heq'
      exact hAq (by
        rw [show A = start from congrArg Prod.fst heq']
        exact List.mem_singleton.2 rfl)
  case _ hne => cases h

/-- C2: whenever `to_dfa` completes, the output automaton has exactly one
initial state (the synthetic id "0"), every graph node of the output is a
registered composite state, and every registered composite state has, for
every symbol of the original alphabet, exactly one outgoing transition
labeled by that symbol. -/
theorem C2_subset_construction_determinism (nfa d : NFA) (kf : Known)
    (h : nfa.to_dfa = DfaRes.done d kf) :
    d.initial_states = ["0"] ∧
    (∀ A a, (A, a) ∈ kf → ∀ inp ∈ nfa.feasible_inputs,
      ∃! b, edgeMem d.adjacency_matrix a inp b) ∧
    (∀ a ∈ d.get_all_states, ∃ A, (A, a) ∈ kf) := by
  obtain ⟨hbase, hproc⟩ := to_dfa_spec nfa d kf h
  refine ⟨hbase.init0, ?_, hbase.nodes⟩
  intro A a hA inp hinp
  obtain ⟨B, b, hcl, hBm, hED⟩ := hproc A a hA inp hinp
  refine ⟨b, hED, ?_⟩
  intro b' hED'
  obtain ⟨_, A₁, B₁, hA₁, hB₁, hcl₁⟩ := hbase.edges a inp b' hED'
  obtain ⟨_, A₂, B₂, hA₂, hB₂, hcl₂⟩ := hbase.edges a inp b hED
  have hA12 : A₁ = A₂ :=
    congrArg Prod.fst (pair_eq_of_snd_nodup (snd_nodup_of_kids hbase.kids) hA₁ hA₂ rfl)
  rw [hA12] at hcl₁
  rw [hcl₁] at hcl₂
  have hB12 : B₁ = B₂ := by
    cases hcl₂
    rfl
  rw [hB12] at hB₁
  exact congrArg Prod.snd (pair_eq_of_fst_nodup hbase.kkeys hB₁ hB₂ rfl)

/-- Witness for C2: a concrete conversion (`X --a--> X`, `X` initial and
accepting, closure built) completes and satisfies the determinism
properties. -/
theorem C2_subset_construction_determinism_witness :
    (⟨["0"], ["0"], ["a"], [("0", [("0", ["a"])])], none⟩ : NFA).initial_states = ["0"] ∧
    (∀ A a, (A, a) ∈ ([(["X"], "0")] : Known) →
      ∀ inp ∈ ((((NFA.new.add_initial_states ["X"]).add_finite_states ["X"]).add_transfer_rule
          "X" "a" "X").calc_epsilon_closure_matrix).feasible_inputs,
      ∃! b, edgeMem ([("0", [("0", ["a"])])] : SMap (SMap (List String))) a inp b) ∧
    (∀ a ∈ (⟨["0"], ["0"], ["a"], [("0", [("0", ["a"])])], none⟩ : NFA).get_all_states,
      ∃ A, (A, a) ∈ ([(["X"], "0")] : Known)) :=
  C2_subset_construction_determinism
    ((((NFA.new.add_initial_states ["X"]).add_finite_states ["X"]).add_transfer_rule
      "X" "a" "X").calc_epsilon_closure_matrix)
    ⟨["0"], ["0"], ["a"], [("0", [("0", ["a"])])], none⟩
    [(["X"], "0")] (by decide)

/-- C1 (counterexample): on the NFA with initial state X, accepting state X
and one epsilon edge `X --eps--> Y` (closure built), the start composite
state {X, Y} intersects the accepting set, yet the output marks no state
accepting — the start state "0" is never checked because only transition
targets are tested (src/nfa.rs:188-193). -/
theorem C1_counterexample :
    NFA.to_dfa ((((NFA.new.add_initial_states ["X"]).add_finite_states ["X"]).add_transfer_rule
        "X" "ɛ" "Y").calc_epsilon_closure_matrix) =
      DfaRes.done ⟨["0"], [], [], [], none⟩ [(["X", "Y"], "0")] ∧
    "X" ∈ ((((NFA.new.add_initial_states ["X"]).add_finite_states ["X"]).add_transfer_rule
        "X" "ɛ" "Y").calc_epsilon_closure_matrix).finite_states ∧
    "X" ∈ ["X", "Y"] ∧
    "0" ∉ (⟨["0"], [], [], [], none⟩ : NFA).finite_states := by
  refine ⟨by decide, by decide, by decide, by decide⟩

/-- C1 (amended): in the completed conversion, every accepting state of the
output is a registered composite state that intersects the original
accepting set and occurs as the target of some emitted transition;
conversely every registered composite state that occurs as a transition
target and intersects the original accepting set is marked accepting. The
start state "0" is marked only when it is re-reached as a target. -/
theorem C1_acceptance_on_targets (nfa d : NFA) (kf : Known)
    (h : nfa.to_dfa = DfaRes.done d kf) :
    (∀ b ∈ d.finite_states, ∃ B, (B, b) ∈ kf ∧ (∃ s ∈ nfa.finite_states, s ∈ B) ∧
      ∃ a inp, edgeMem d.adjacency_matrix a inp b) ∧
    (∀ a inp B b, edgeMem d.adjacency_matrix a inp b → (B, b) ∈ kf →
      (∃ s ∈ nfa.finite_states, s ∈ B) → b ∈ d.finite_states) := by
  obtain ⟨hbase, _⟩ := to_dfa_spec nfa d kf h
  exact ⟨hbase.fin_sound, hbase.fin_comp⟩

/-- Witness for C1 (amended): the concrete conversion of the `X --a--> X`
automaton, whose single composite state is a transition target and
intersects the accepting set and is indeed marked accepting. -/
theorem C1_acceptance_on_targets_witness :
    (∀ b ∈ (⟨["0"], ["0"], ["a"], [("0", [("0", ["a"])])], none⟩ : NFA).finite_states,
      ∃ B, (B, b) ∈ ([(["X"], "0")] : Known) ∧
        (∃ s ∈ ((((NFA.new.add_initial_states ["X"]).add_finite_states ["X"]).add_transfer_rule
            "X" "a" "X").calc_epsilon_closure_matrix).finite_states, s ∈ B) ∧
        ∃ a inp, edgeMem ([("0", [("0", ["a"])])] : SMap (SMap (List String))) a inp b) ∧
    (∀ a inp B b, edgeMem ([("0", [("0", ["a"])])] : SMap (SMap (List String))) a inp b →
      (B, b) ∈ ([(["X"], "0")] : Known) →
      (∃ s ∈ ((((NFA.new.add_initial_states ["X"]).add_finite_states ["X"]).add_transfer_rule
          "X" "a" "X").calc_epsilon_closure_matrix).finite_states, s ∈ B) →
      b ∈ (⟨["0"], ["0"], ["a"], [("0", [("0", ["a"])])], none⟩ : NFA).finite_states) :=
  C1_acceptance_on_targets
    ((((NFA.new.add_initial_states ["X"]).add_finite_states ["X"]).add_transfer_rule
      "X" "a" "X").calc_epsilon_closure_matrix)
    ⟨["0"], ["0"], ["a"], [("0", [("0", ["a"])])], none⟩
    [(["X"], "0")] (by decide)

end Automata
